import Mathlib

/-!
# Verification of the tree-sitter GLR parser runtime core

A shallow embedding of the version-pruning, tree-selection, lexing and
stack-condensation logic of `src/runtime/parser.c`, of the reusable-node
lookahead machinery, and of the parse-table construction in
`src/compiler/parse_table.cc`, together with theorems settling the
specification claims about them.

Machine integers are modelled as `Nat` / `Int`; C `unsigned` arithmetic that
can wrap is taken modulo `2 ^ 32`.  Functions that live in translation units
not present in this repository snapshot (`stack.c`, `tree.c`, `lexer.c`,
`error_costs.h`) are modelled from the specification, and each such
definition says so in its doc comment.
-/

namespace TreeSitter

/-- `MAX_VERSION_COUNT` from parser.c:36. -/
def MAX_VERSION_COUNT : Nat := 6

/-- `MAX_SUMMARY_DEPTH` from parser.c:37. -/
def MAX_SUMMARY_DEPTH : Nat := 16

/-- Modulus of C `unsigned` (32-bit) arithmetic. -/
def U32_MOD : Nat := 2 ^ 32

/-- `MAX_COST_DIFFERENCE = 16 * ERROR_COST_PER_SKIPPED_TREE` from parser.c:38.
`ERROR_COST_PER_SKIPPED_TREE` itself lives in the missing `error_costs.h`, so
the development is parametric in it (`ecpst`). -/
def MAX_COST_DIFFERENCE (ecpst : Nat) : Nat := 16 * ecpst

/-- Modelled from the spec: "state id 0 is ERROR_STATE" (§6); the reserved
error state used throughout parser.c. -/
def ERROR_STATE : Nat := 0

/-- Modelled from the spec: the reserved `END` (EOF) symbol (§6); its concrete
id comes from the missing `tree_sitter/parser.h`, and only its distinctness
from other symbols matters here. -/
def ts_builtin_sym_end : Nat := 0

/-- Modelled from the spec: the reserved `ERROR` symbol (§6). -/
def ts_builtin_sym_error : Nat := 65535

/-- Modelled from the spec: the reserved `ERROR_REPEAT` symbol (§6). -/
def ts_builtin_sym_error_repeat : Nat := 65534

/-- `ErrorStatus` from parser.c:40-45.  `cost` and `node_count` are C
`unsigned`, `dynamic_precedence` is a C `int`. -/
structure ErrorStatus where
  cost : Nat
  node_count : Nat
  dynamic_precedence : Int
  is_in_error : Bool
deriving DecidableEq

/-- `ErrorComparison` from parser.c:47-53. -/
inductive ErrorComparison where
  | takeLeft
  | preferLeft
  | none
  | preferRight
  | takeRight
deriving DecidableEq

/-- Shallow embedding of `parser__compare_versions` (parser.c:135-171).  The
cost-difference products are computed in 32-bit unsigned arithmetic, as in C. -/
def parser__compare_versions (ecpst : Nat) (a b : ErrorStatus) : ErrorComparison :=
  if !a.is_in_error && b.is_in_error then
    if a.cost < b.cost then .takeLeft else .preferLeft
  else if a.is_in_error && !b.is_in_error then
    if b.cost < a.cost then .takeRight else .preferRight
  else if a.cost < b.cost then
    if ((b.cost - a.cost) * (1 + a.node_count)) % U32_MOD > MAX_COST_DIFFERENCE ecpst then
      .takeLeft
    else
      .preferLeft
  else if b.cost < a.cost then
    if ((a.cost - b.cost) * (1 + b.node_count)) % U32_MOD > MAX_COST_DIFFERENCE ecpst then
      .takeRight
    else
      .preferRight
  else if a.dynamic_precedence > b.dynamic_precedence then .preferLeft
  else if b.dynamic_precedence > a.dynamic_precedence then .preferRight
  else .none

/-- `compare_versions` exactly as the specification claim describes it: when
exactly one side is in error the non-error side wins (`Take` iff its cost is
strictly lower); otherwise costs are compared, the 32-bit product
`(larger − smaller) * (1 + node_count of the cheaper side)` against
`MAX_COST_DIFFERENCE` deciding `Take` versus `Prefer`; on equal cost the side
with strictly higher dynamic precedence is preferred, else `None`. -/
def compare_versions_spec (ecpst : Nat) (a b : ErrorStatus) : ErrorComparison :=
  if a.is_in_error ≠ b.is_in_error then
    if b.is_in_error then
      if a.cost < b.cost then .takeLeft else .preferLeft
    else
      if b.cost < a.cost then .takeRight else .preferRight
  else if a.cost < b.cost then
    if ((b.cost - a.cost) * (1 + a.node_count)) % U32_MOD > MAX_COST_DIFFERENCE ecpst then
      .takeLeft
    else
      .preferLeft
  else if b.cost < a.cost then
    if ((a.cost - b.cost) * (1 + b.node_count)) % U32_MOD > MAX_COST_DIFFERENCE ecpst then
      .takeRight
    else
      .preferRight
  else if a.dynamic_precedence > b.dynamic_precedence then .preferLeft
  else if b.dynamic_precedence > a.dynamic_precedence then .preferRight
  else .none

/-- One GSS stack version as the condensation logic sees it.  The fields model
the `ts_stack_*` accessors of the missing `stack.c`: `state`, `position` and
`extTokens` form the merge key (spec §3: merge is allowed iff
"(state, position, last-external-token-state) match"), `errorCost`,
`nodeCount` and `dynPrec` model `ts_stack_error_cost`,
`ts_stack_node_count_since_error` and `ts_stack_dynamic_precedence`, and
`paused` / `halted` model `ts_stack_is_paused` / `ts_stack_is_halted`. -/
structure Version where
  state : Nat
  position : Nat
  extTokens : Nat
  errorCost : Nat
  nodeCount : Nat
  dynPrec : Int
  paused : Bool
  halted : Bool
deriving DecidableEq

/-- Shallow embedding of `parser__version_status` (parser.c:173-183); the
pause penalty is added in 32-bit unsigned arithmetic. -/
def parser__version_status (ecpst : Nat) (v : Version) : ErrorStatus :=
  { cost := (v.errorCost + (if v.paused then ecpst else 0)) % U32_MOD
    node_count := v.nodeCount
    dynamic_precedence := v.dynPrec
    is_in_error := v.paused || (v.state == ERROR_STATE) }

/-- A lex mode: the pair stored in `lang.lex_modes[state]` (spec §6). -/
structure LexMode where
  lexState : Nat
  externalLexState : Nat
deriving DecidableEq

/-- The scalar fields of a tree node (spec §3 "Tree node"; the `Tree` struct of
the missing `tree.h`).  `start` is the node's start position, which the
spec-modelled `ts_tree_compare` orders on. -/
structure TreeData where
  symbol : Nat
  start : Nat
  padding : Nat
  size : Nat
  parseState : Nat
  errorCost : Nat
  dynPrec : Int
  bytesScanned : Nat
  extra : Bool
  visible : Bool
  isMissing : Bool
  hasChanges : Bool
  fragileLeft : Bool
  fragileRight : Bool
  hasExternalTokens : Bool
  firstLeafSym : Nat
  firstLeafLexMode : LexMode
  extTokState : Option Nat
  aliasSequenceId : Nat
deriving DecidableEq

/-- A syntax tree node: scalar data plus an ordered list of children. -/
inductive Tree where
  | mk (data : TreeData) (children : List Tree)

mutual

/-- Decidable equality of trees. -/
def treeDecEq : (a b : Tree) → Decidable (a = b)
  | .mk d cs, .mk e ds =>
    match decEq d e with
    | isFalse h => isFalse (fun he => by cases he; exact h rfl)
    | isTrue hd =>
      match treeListDecEq cs ds with
      | isTrue hc => isTrue (by rw [hd, hc])
      | isFalse h => isFalse (fun he => by cases he; exact h rfl)

/-- Decidable equality of lists of trees. -/
def treeListDecEq : (a b : List Tree) → Decidable (a = b)
  | [], [] => isTrue rfl
  | [], _ :: _ => isFalse (fun h => List.noConfusion h)
  | _ :: _, [] => isFalse (fun h => List.noConfusion h)
  | t :: ts, u :: us =>
    match treeDecEq t u, treeListDecEq ts us with
    | isTrue h1, isTrue h2 => isTrue (by rw [h1, h2])
    | isFalse h1, _ => isFalse (fun h => by injection h with ha hb; exact h1 ha)
    | isTrue _, isFalse h2 => isFalse (fun h => by injection h with ha hb; exact h2 hb)

end

instance : DecidableEq Tree := treeDecEq

/-- The scalar data of a tree node. -/
def Tree.data : Tree → TreeData
  | .mk d _ => d

/-- The children of a tree node. -/
def Tree.children : Tree → List Tree
  | .mk _ c => c

/-- Total byte extent of a node: `padding.bytes + size.bytes`
(`ts_tree_total_bytes` of the missing `tree.h`). -/
def totalBytes (t : Tree) : Nat := t.data.padding + t.data.size

/-- Sum of the total byte extents of a list of child trees. -/
def childrenTotalBytes (cs : List Tree) : Nat := (cs.map totalBytes).sum

mutual

/-- Modelled from the spec: `ts_tree_compare` of the missing `tree.c`.
"Tree comparison (`compare(a, b) → {-1,0,1}`) defines a total order …:
lexicographic over (start position, symbol, recursive compare of children)"
(spec §4.1). -/
def ts_tree_compare : Tree → Tree → Int
  | .mk d cs, .mk e ds =>
    if d.start < e.start then -1
    else if e.start < d.start then 1
    else if d.symbol < e.symbol then -1
    else if e.symbol < d.symbol then 1
    else ts_tree_compare_list cs ds

/-- Lexicographic comparison of child lists used by `ts_tree_compare`. -/
def ts_tree_compare_list : List Tree → List Tree → Int
  | [], [] => 0
  | [], _ :: _ => -1
  | _ :: _, [] => 1
  | t :: ts, u :: us =>
    let c := ts_tree_compare t u
    if c = 0 then ts_tree_compare_list ts us else c

end

/-- Shallow embedding of `parser__select_tree` (parser.c:495-543): returns
whether to keep the `right` tree. -/
def parser__select_tree : Option Tree → Option Tree → Bool
  | Option.none, _ => true
  | some _, Option.none => false
  | some left, some right =>
    if right.data.errorCost < left.data.errorCost then true
    else if left.data.errorCost < right.data.errorCost then false
    else if right.data.dynPrec > left.data.dynPrec then true
    else if left.data.dynPrec > right.data.dynPrec then false
    else if left.data.errorCost > 0 then true
    else
      let c := ts_tree_compare left right
      if c = -1 then false
      else if c = 1 then true
      else false

/-- `select_tree` exactly as the specification claim states it: smaller
`error_cost` wins, then higher `dynamic_precedence` wins, then — if both trees
have `error_cost > 0` — the LEFT tree is kept, and otherwise the lexicographic
compare keeps the tree that appears earlier (the left one on ties). -/
def select_tree_claim : Option Tree → Option Tree → Bool
  | Option.none, _ => true
  | some _, Option.none => false
  | some left, some right =>
    if right.data.errorCost < left.data.errorCost then true
    else if left.data.errorCost < right.data.errorCost then false
    else if right.data.dynPrec > left.data.dynPrec then true
    else if left.data.dynPrec > right.data.dynPrec then false
    else if 0 < left.data.errorCost ∧ 0 < right.data.errorCost then false
    else if ts_tree_compare left right = 1 then true
    else false

/-- `select_tree` as the claim must be amended: identical to the claim except
that when both trees have `error_cost > 0` the RIGHT tree is kept. -/
def select_tree_amended : Option Tree → Option Tree → Bool
  | Option.none, _ => true
  | some _, Option.none => false
  | some left, some right =>
    if right.data.errorCost < left.data.errorCost then true
    else if left.data.errorCost < right.data.errorCost then false
    else if right.data.dynPrec > left.data.dynPrec then true
    else if left.data.dynPrec > right.data.dynPrec then false
    else if 0 < left.data.errorCost ∧ 0 < right.data.errorCost then true
    else if ts_tree_compare left right = 1 then true
    else false

/-- A convenient default set of scalar fields for building concrete trees. -/
def baseTreeData : TreeData :=
  { symbol := 0
    start := 0
    padding := 0
    size := 0
    parseState := 0
    errorCost := 0
    dynPrec := 0
    bytesScanned := 1
    extra := false
    visible := true
    isMissing := false
    hasChanges := false
    fragileLeft := false
    fragileRight := false
    hasExternalTokens := false
    firstLeafSym := 0
    firstLeafLexMode := { lexState := 0, externalLexState := 0 }
    extTokState := Option.none
    aliasSequenceId := 0 }

/-- Modelled from the spec: `ts_stack_merge` of the missing `stack.c` succeeds
iff the merge keys match: "merge(a,b) (only if (state, position,
last-external-token-state) match)" (spec §3). -/
def ts_stack_can_merge (a b : Version) : Bool :=
  a.state == b.state && a.position == b.position && a.extTokens == b.extTokens

/-- The inner pair loop of `parser__condense_stack` (parser.c:1182-1216) for
one outer iteration: `done` holds the versions at indices `0..j-1` already
compared, `toCompare` the versions still to compare against, `cur` the version
at the outer index `i`, and `st` the `status_i` computed once at parser.c:1177
(it is NOT refreshed when a `PreferRight` swap places a different version at
index `i`).  `combine` models how `ts_stack_merge` combines two mergeable
heads.  Returns the updated prefix and the surviving version at index `i`. -/
def condense_scan_stale (ecpst : Nat) (combine : Version → Version → Version) :
    List Version → List Version → Version → ErrorStatus → List Version × Option Version
  | done, [], cur, _ => (done, some cur)
  | done, vj :: toCompare, cur, st =>
    match parser__compare_versions ecpst (parser__version_status ecpst vj) st with
    | .takeLeft =>
      (done ++ vj :: toCompare, Option.none)
    | .preferLeft | .none =>
      if ts_stack_can_merge vj cur then (done ++ combine vj cur :: toCompare, Option.none)
      else condense_scan_stale ecpst combine (done ++ [vj]) toCompare cur st
    | .preferRight =>
      if ts_stack_can_merge vj cur then (done ++ combine vj cur :: toCompare, Option.none)
      else condense_scan_stale ecpst combine (done ++ [cur]) toCompare vj st
    | .takeRight =>
      condense_scan_stale ecpst combine done toCompare cur st

/-- The same pair loop but with `status_i` recomputed from the version
currently at index `i` for every comparison, which is how the specification
claim reads. -/
def condense_scan_fresh (ecpst : Nat) (combine : Version → Version → Version) :
    List Version → List Version → Version → List Version × Option Version
  | done, [], cur => (done, some cur)
  | done, vj :: toCompare, cur =>
    match parser__compare_versions ecpst (parser__version_status ecpst vj)
        (parser__version_status ecpst cur) with
    | .takeLeft =>
      (done ++ vj :: toCompare, Option.none)
    | .preferLeft | .none =>
      if ts_stack_can_merge vj cur then (done ++ combine vj cur :: toCompare, Option.none)
      else condense_scan_fresh ecpst combine (done ++ [vj]) toCompare cur
    | .preferRight =>
      if ts_stack_can_merge vj cur then (done ++ combine vj cur :: toCompare, Option.none)
      else condense_scan_fresh ecpst combine (done ++ [cur]) toCompare vj
    | .takeRight =>
      condense_scan_fresh ecpst combine done toCompare cur

/-- The outer loop of the pairwise phase of `parser__condense_stack`
(parser.c:1170-1217): versions are taken in index order, halted ones are
removed when the outer loop reaches them (parser.c:1171-1175), and each
surviving one is scanned against the prefix with the stale `status_i`. -/
def parser__condense_stack_scan (ecpst : Nat) (combine : Version → Version → Version) :
    List Version → List Version → List Version
  | acc, [] => acc
  | acc, v :: todo =>
    if v.halted then parser__condense_stack_scan ecpst combine acc todo
    else
      match condense_scan_stale ecpst combine [] acc v (parser__version_status ecpst v) with
      | (acc2, some v2) => parser__condense_stack_scan ecpst combine (acc2 ++ [v2]) todo
      | (acc2, Option.none) => parser__condense_stack_scan ecpst combine acc2 todo

/-- The outer loop without a halted check, with the stale `status_i`. -/
def condense_go_stale (ecpst : Nat) (combine : Version → Version → Version) :
    List Version → List Version → List Version
  | acc, [] => acc
  | acc, v :: todo =>
    match condense_scan_stale ecpst combine [] acc v (parser__version_status ecpst v) with
    | (acc2, some v2) => condense_go_stale ecpst combine (acc2 ++ [v2]) todo
    | (acc2, Option.none) => condense_go_stale ecpst combine acc2 todo

/-- The outer loop without a halted check, with fresh statuses. -/
def condense_go_fresh (ecpst : Nat) (combine : Version → Version → Version) :
    List Version → List Version → List Version
  | acc, [] => acc
  | acc, v :: todo =>
    match condense_scan_fresh ecpst combine [] acc v with
    | (acc2, some v2) => condense_go_fresh ecpst combine (acc2 ++ [v2]) todo
    | (acc2, Option.none) => condense_go_fresh ecpst combine acc2 todo

/-- The pairwise phase of `condense_stack` exactly as the specification claim
describes it: first remove every halted version, then walk the pairs `(j, i)`
with `j < i`, acting on `compare_versions(status_j, status_i)` computed from
the versions currently at indices `j` and `i`. -/
def condense_stack_claim (ecpst : Nat) (combine : Version → Version → Version)
    (vs : List Version) : List Version :=
  condense_go_fresh ecpst combine [] (vs.filter (fun v => !v.halted))

/-- The pairwise phase of `condense_stack` as the claim must be amended:
halted versions are all removed, and each pair `(j, i)` acts on
`compare_versions(status_j, status_i)` where `status_i` is sampled once when
the scan of index `i` begins and is not resampled after a `PreferRight` swap
places a different version at index `i`. -/
def condense_stack_amended (ecpst : Nat) (combine : Version → Version → Version)
    (vs : List Version) : List Version :=
  condense_go_stale ecpst combine [] (vs.filter (fun v => !v.halted))

/-- The version-cap loop of `parser__condense_stack` (parser.c:1219-1222):
while more than `MAX_VERSION_COUNT` versions remain, remove the version at
index `MAX_VERSION_COUNT`. -/
def parser__condense_stack_cap (vs : List Version) : List Version :=
  if h : MAX_VERSION_COUNT < vs.length then
    parser__condense_stack_cap (vs.eraseIdx MAX_VERSION_COUNT)
  else vs
termination_by vs.length
decreasing_by
  simp only [List.length_eraseIdx, h, if_pos]
  omega

/-- `ts_stack_halt` on one version: marks it halted. -/
def haltVersion (v : Version) : Version := { v with halted := true }

/-- Replace the element at one index of a list, leaving other indices alone. -/
def modifyAt (f : Version → Version) : List Version → Nat → List Version
  | [], _ => []
  | v :: vs, 0 => f v :: vs
  | v :: vs, n + 1 => v :: modifyAt f vs n

/-- `ts_stack_halt` applied to the versions of the remaining slices
(parser.c:644-650). -/
def haltSliceVersions (vs : List Version) (idxs : List Nat) : List Version :=
  idxs.foldl (modifyAt haltVersion) vs

/-- The removal loop at parser.c:651-653: while more versions than `k` exist,
remove the version at index `k`. -/
def removeVersionsAbove (vs : List Version) (k : Nat) : List Version :=
  if h : k < vs.length then removeVersionsAbove (vs.eraseIdx k) k else vs
termination_by vs.length
decreasing_by
  simp only [List.length_eraseIdx, h, if_pos]
  omega

/-- The per-slice loop of `parser__reduce` restricted to its effect on the
version list (parser.c:586-656): pushing parents does not change the version
count, and as soon as the count exceeds `MAX_VERSION_COUNT` after a slice
whose version index is `sv`, the remaining slices' versions are halted and
every version above index `sv` is removed (parser.c:643-655).  `slices` is the
list of version indices of the `StackSlice`s returned by the spec-modelled
`ts_stack_pop_count`. -/
def reduce_slice_loop (vs : List Version) : List Nat → List Version
  | [] => vs
  | sv :: rest =>
    if MAX_VERSION_COUNT < vs.length then
      removeVersionsAbove (haltSliceVersions vs rest) (sv + 1)
    else reduce_slice_loop vs rest

/-- The merge loop at the end of `parser__reduce` (parser.c:658-665): each
version created by the pop is merged into the first earlier newly created
version with a matching key, if any. -/
def reduce_merge_news (combine : Version → Version → Version) :
    List Version → List Version → List Version
  | acc, [] => acc
  | acc, v :: rest =>
    match acc.findIdx? (fun w => ts_stack_can_merge w v) with
    | some j => reduce_merge_news combine (modifyAt (fun w => combine w v) acc j) rest
    | Option.none => reduce_merge_news combine (acc ++ [v]) rest

/-- The effect of `parser__reduce` (parser.c:579-667) on the stack's version
list: `initialCount` is the version count before the pop (parser.c:582), `vs`
the version list after `ts_stack_pop_count` appended its newly created
versions, and `slices` the version indices of the returned slices. -/
def parser__reduce_versions (combine : Version → Version → Version)
    (initialCount : Nat) (vs : List Version) (slices : List Nat) : List Version :=
  let vs1 := reduce_slice_loop vs slices
  vs1.take initialCount ++ reduce_merge_news combine [] (vs1.drop initialCount)

/-- Modelled from the spec: `ts_tree_make_leaf` of the missing `tree.c`
(spec §4.1), restricted to the fields this development reads. -/
def ts_tree_make_leaf (sym padding size : Nat) : Tree :=
  .mk { baseTreeData with symbol := sym, padding := padding, size := size } []

/-- Modelled from the spec: `ts_tree_make_error` of the missing `tree.c`
(spec §4.1): an error leaf covering `size` bytes after `padding` bytes of
padding.  The recorded first error character is not a `TreeData` field and no
claim reads it; the intrinsic error cost comes from the missing
`error_costs.h` and no claim here depends on its value. -/
def ts_tree_make_error (size padding _firstErrorChar : Nat) : Tree :=
  .mk { baseTreeData with
        symbol := ts_builtin_sym_error
        padding := padding
        size := size
        errorCost := 1 } []

/-- Modelled from the spec: `ts_tree_make_node` of the missing `tree.c`
(spec §4.1): "computes `size`, `padding`, `error_cost` … from `children`",
with "`N.size + N.padding` equals the sum of children's" (spec §8). -/
def ts_tree_make_node (sym : Nat) (cs : List Tree) (aliasSeq : Nat) : Tree :=
  let pad := match cs with
    | [] => 0
    | c :: _ => c.data.padding
  .mk { baseTreeData with
        symbol := sym
        padding := pad
        size := childrenTotalBytes cs - pad
        errorCost := (cs.map (fun c => c.data.errorCost)).sum
        aliasSequenceId := aliasSeq } cs

/-- Modelled from the spec: `ts_tree_make_error_node` of the missing `tree.c`:
an internal `ERROR` node built from a child array. -/
def ts_tree_make_error_node (cs : List Tree) : Tree :=
  ts_tree_make_node ts_builtin_sym_error cs 0

/-- Splits a tree list around its LAST non-`extra` element, the element the
loop at parser.c:700-714 stops at: returns `(before, child, after)` with
every element of `after` marked `extra`. -/
def splitLastNonExtra : List Tree → Option (List Tree × Tree × List Tree)
  | [] => Option.none
  | t :: rest =>
    match splitLastNonExtra rest with
    | some (before, c, after) => some (t :: before, c, after)
    | Option.none =>
      if t.data.extra then Option.none else some ([], t, rest)

/-- The root construction inside `parser__accept` (parser.c:696-714): the last
non-`extra` tree of a popped slice is replaced by its children (the
`array_splice` at parser.c:706) and a new root node with that tree's symbol
and alias is built from the result. -/
def parser__accept_root (trees : List Tree) : Option Tree :=
  match splitLastNonExtra trees with
  | Option.none => Option.none
  | some (before, child, after) =>
    some (ts_tree_make_node child.data.symbol (before ++ child.children ++ after)
      child.data.aliasSequenceId)

/-- What the parse loop decides after a condense pass (parser.c:1316-1322). -/
inductive ParseLoopDecision where
  | returnFinished
  | callHaltParse
  | continueParsing
deriving DecidableEq

/-- Shallow embedding of the decision at parser.c:1316-1322: return the
finished tree when one exists with error cost strictly below the minimum
version cost; otherwise call `parser__halt_parse` when `halt_on_error` is set
and the minimum cost is positive; otherwise keep parsing. -/
def parse_loop_decision (haltOnError : Bool) (minErrorCost : Nat)
    (finished : Option Tree) : ParseLoopDecision :=
  match finished with
  | some f =>
    if f.data.errorCost < minErrorCost then .returnFinished
    else if haltOnError && 0 < minErrorCost then .callHaltParse
    else .continueParsing
  | Option.none =>
    if haltOnError && 0 < minErrorCost then .callHaltParse
    else .continueParsing

/-- Marks a tree `extra`, as `parser__accept` does to the lookahead at
parser.c:690. -/
def markExtra (t : Tree) : Tree :=
  match t with
  | .mk d cs => .mk { d with extra := true } cs

/-- Marks a tree invisible, as `parser__halt_parse` does to the filler node at
parser.c:892. -/
def markInvisible (t : Tree) : Tree :=
  match t with
  | .mk d cs => .mk { d with visible := false } cs

/-- Shallow embedding of `parser__halt_parse` (parser.c:881-902): the lexer is
driven to the end of the input (`inputEndPos`), an invisible filler error node
covering the remaining `inputEndPos - stackPos` bytes is pushed, an error root
node is pushed, and a zero-width EOF leaf is accepted.  `stackTrees` are the
trees on version 0 of the stack (whose byte extents sum to `stackPos`), which
the `ts_stack_pop_all` inside `parser__accept` returns together with the
pushed nodes. -/
def parser__halt_parse (inputEndPos stackPos : Nat) (stackTrees : List Tree) :
    Option Tree :=
  let remaining := inputEndPos - stackPos
  let filler := markInvisible (ts_tree_make_error remaining 0 0)
  let rootError := ts_tree_make_error_node []
  let eof := markExtra (ts_tree_make_leaf ts_builtin_sym_end 0 0)
  parser__accept_root (stackTrees ++ [filler, rootError, eof])

/-- `ParseActionType` from the compiler's parse_table.h. -/
inductive ParseActionType where
  | error
  | shift
  | reduce
  | accept
deriving DecidableEq

/-- `ParseAction` from the compiler's parse_table.h: `symbol` is a
`rules::Symbol` (an integer index), `production` a pointer modelled by an
optional identifier, and `precedenceLo/Hi` with `associativity` model
`precedence_range` and `associativity`. -/
structure ParseAction where
  type : ParseActionType
  extra : Bool
  fragile : Bool
  symbol : Int
  stateIndex : Nat
  consumedSymbolCount : Nat
  precedenceLo : Int
  precedenceHi : Int
  associativity : Nat
  production : Option Nat
deriving DecidableEq

/-- `ParseAction::operator==` (parse_table.cc:80-85): compares `type`,
`extra`, `fragile`, `symbol`, `state_index`, `production` and
`consumed_symbol_count` — and neither the precedence range nor the
associativity. -/
def ParseAction.eqOp (a b : ParseAction) : Bool :=
  a.type == b.type && a.extra == b.extra && a.fragile == b.fragile &&
    a.symbol == b.symbol && a.stateIndex == b.stateIndex &&
    a.production == b.production && a.consumedSymbolCount == b.consumedSymbolCount

/-- `ParseTableEntry` from parse_table.h. -/
structure ParseTableEntry where
  actions : List ParseAction
  reusable : Bool
  dependsOnLookahead : Bool
deriving DecidableEq

/-- The `ParseTableEntry` default constructor (parse_table.cc:115-116). -/
def emptyParseTableEntry : ParseTableEntry :=
  { actions := [], reusable := true, dependsOnLookahead := false }

/-- `ParseTableSymbolMetadata` from parse_table.h. -/
structure ParseTableSymbolMetadata where
  extra : Bool
  structural : Bool
deriving DecidableEq

/-- `ParseState` from parse_table.h; `entries` models the `std::map` from
symbols to table entries as an association list. -/
structure ParseState where
  entries : List (Int × ParseTableEntry)
  lexStateId : Int
deriving DecidableEq

/-- The `ParseState` default constructor (parse_table.cc:129). -/
def emptyParseState : ParseState :=
  { entries := [], lexStateId := -1 }

/-- `ParseTable` from parse_table.h (the `error_state` member plays no role in
`add_action` and is omitted). -/
structure ParseTable where
  states : List ParseState
  symbols : List (Int × ParseTableSymbolMetadata)
deriving DecidableEq

/-- Lookup in an association list with a default value, modelling the read
part of `std::map::operator[]`. -/
def alistGet {β : Type} (d : β) (l : List (Int × β)) (k : Int) : β :=
  match l.find? (fun p => p.1 == k) with
  | some p => p.2
  | Option.none => d

/-- Update of an association list: replaces the first binding of the key, or
appends one, modelling the write part of `std::map::operator[]`. -/
def alistSet {β : Type} : List (Int × β) → Int → β → List (Int × β)
  | [], k, v => [(k, v)]
  | p :: rest, k, v =>
    if p.1 == k then (k, v) :: rest else p :: alistSet rest k v

/-- The symbol-flagging prologue shared by `set_action` and `add_action`
(parse_table.cc:163-166 and 174-177): mark the symbol extra or structural. -/
def markSymbolMetadata (m : ParseTableSymbolMetadata) (extra : Bool) :
    ParseTableSymbolMetadata :=
  if extra then { m with extra := true } else { m with structural := true }

/-- Shallow embedding of `ParseTable::add_action` (parse_table.cc:172-186):
the symbol is marked extra or structural, then the state's entry for the
symbol is scanned for an action equal (per `operator==`) to the new one; if
one exists it is returned and the action list is left alone, otherwise the
action is appended and returned. -/
def ParseTable.add_action (t : ParseTable) (id : Nat) (symbol : Int)
    (action : ParseAction) : ParseTable × ParseAction :=
  let meta := alistGet { extra := false, structural := false } t.symbols symbol
  let meta2 := markSymbolMetadata meta action.extra
  let symbols2 := alistSet t.symbols symbol meta2
  let st := t.states.getD id emptyParseState
  let entry := alistGet emptyParseTableEntry st.entries symbol
  match entry.actions.find? (fun e => ParseAction.eqOp e action) with
  | some existing =>
    let st2 := { st with entries := alistSet st.entries symbol entry }
    ({ t with symbols := symbols2, states := t.states.set id st2 }, existing)
  | Option.none =>
    let st2 := { st with
      entries := alistSet st.entries symbol
        { entry with actions := entry.actions ++ [action] } }
    ({ t with symbols := symbols2, states := t.states.set id st2 }, action)

/-- The action list a table holds at a given state and symbol. -/
def ParseTable.actionsAt (t : ParseTable) (id : Nat) (symbol : Int) :
    List ParseAction :=
  (alistGet emptyParseTableEntry (t.states.getD id emptyParseState).entries symbol).actions

/-- Modelled from the spec: the external-token state that is current just
after a subtree, used by the reusable-node cursor: the subtree's own saved
state if it contains external tokens, the preceding state otherwise. -/
def extAfter (e : Option Nat) (t : Tree) : Option Nat :=
  if t.data.hasExternalTokens then t.data.extTokState else e

/-- One position of the reusable-node cursor: a candidate tree, the byte index
where it starts, and the external-token state in force there (spec §4.2). -/
structure RNodeEntry where
  tree : Tree
  byteIndex : Nat
  lastExternalToken : Option Nat
deriving DecidableEq

/-- The cursor-position entries of the children of a node starting at byte
`b` under external-token state `e`, in order. -/
def childEntries (b : Nat) (e : Option Nat) : List Tree → List RNodeEntry
  | [] => []
  | c :: cs => ⟨c, b, e⟩ :: childEntries (b + totalBytes c) (extAfter e c) cs

/-- Modelled from the spec: `reusable_node_pop` — "advance past the current
node to its successor-in-order" (spec §4.2).  The cursor is modelled as the
list of positions it will visit at the current granularity. -/
def reusable_node_pop : List RNodeEntry → List RNodeEntry
  | [] => []
  | _ :: rest => rest

/-- Modelled from the spec: `reusable_node_breakdown` — "descend into the
current node's first child (fails if leaf)" (spec §4.2); the further children
become the following cursor positions. -/
def reusable_node_breakdown : List RNodeEntry → Option (List RNodeEntry)
  | [] => Option.none
  | e :: rest =>
    match e.tree with
    | .mk _ [] => Option.none
    | .mk _ (c :: cs) =>
      some (childEntries e.byteIndex e.lastExternalToken (c :: cs) ++ rest)

/-- Descends to the first leaf of `t` and drops it, accumulating the
remaining cursor positions; helper for `reusable_node_after_leaf`. -/
def afterLeafGo : Tree → Nat → Option Nat → List RNodeEntry → List RNodeEntry
  | .mk _ [], _, _, rest => rest
  | .mk _ (c :: cs), b, e, rest =>
    afterLeafGo c b e (childEntries (b + totalBytes c) (extAfter e c) cs ++ rest)

/-- Modelled from the spec: `reusable_node_after_leaf` — "the cursor
positioned just after the current node's first leaf" (spec §4.2). -/
def reusable_node_after_leaf : List RNodeEntry → List RNodeEntry
  | [] => []
  | e :: rest => afterLeafGo e.tree e.byteIndex e.lastExternalToken rest

/-- The runtime `TableEntry` (language.h) without the raw action pointer. -/
structure TableEntry where
  actionCount : Nat
  isReusable : Bool
  dependsOnLookahead : Bool
deriving DecidableEq

/-- The slice of the language table that the lookahead machinery consults:
`lex_modes`, `keyword_capture_token` and `ts_language_table_entry`. -/
structure Language where
  lexModes : Nat → LexMode
  keywordCaptureToken : Nat
  tableEntry : Nat → Nat → TableEntry

/-- Shallow embedding of `parser__can_reuse_first_leaf` (parser.c:398-415). -/
def parser__can_reuse_first_leaf (lang : Language) (state : Nat) (t : Tree)
    (entry : TableEntry) : Bool :=
  let currentLexMode := lang.lexModes state
  if t.data.firstLeafLexMode.lexState == currentLexMode.lexState &&
      t.data.firstLeafLexMode.externalLexState == currentLexMode.externalLexState &&
      (t.data.firstLeafSym != lang.keywordCaptureToken ||
        t.data.parseState == state) then
    true
  else if t.data.size == 0 && t.data.symbol != ts_builtin_sym_end then
    false
  else
    currentLexMode.externalLexState == 0 && entry.isReusable

/-- The single-slot token cache (parser.h / spec §3). -/
structure TokenCache where
  token : Option Tree
  byteIndex : Nat
  lastExternalToken : Option Nat
deriving DecidableEq

/-- Shallow embedding of `parser__get_cached_token` (parser.c:375-384). -/
def parser__get_cached_token (cache : TokenCache) (byteIndex : Nat)
    (lastExt : Option Nat) : Option Tree :=
  match cache.token with
  | some tok =>
    if cache.byteIndex == byteIndex && cache.lastExternalToken == lastExt then
      some tok
    else Option.none
  | Option.none => Option.none

/-- Shallow embedding of `parser__set_cached_token` (parser.c:386-396),
restricted to the cache value (reference counting is not modelled). -/
def parser__set_cached_token (byteIndex : Nat) (lastExt : Option Nat)
    (token : Option Tree) : TokenCache :=
  { token := token, byteIndex := byteIndex, lastExternalToken := lastExt }

/-- The reasons at parser.c:441-452 for which a cursor tree cannot be reused
as a whole and must be broken down. -/
def cantReuseNodeReason (inAmbiguity : Bool) (t : Tree) : Bool :=
  t.data.hasChanges || t.data.symbol == ts_builtin_sym_error ||
    t.data.isMissing || t.data.fragileLeft || t.data.fragileRight ||
    (inAmbiguity && !t.children.isEmpty)

/-- Which of its three sources `parser__get_lookahead` served the token from. -/
inductive LookaheadSource where
  | reuse
  | cache
  | fresh
deriving DecidableEq

/-- The outcome of `parser__get_lookahead`: the token, the table entry left in
the out-parameter, the (possibly updated) head state, cursor and cache, and
which source produced the token. -/
structure LookaheadResult where
  tree : Tree
  entry : TableEntry
  state : Nat
  cursor : List RNodeEntry
  cache : TokenCache
  source : LookaheadSource
deriving DecidableEq

/-- The cursor loop of `parser__get_lookahead` (parser.c:422-479), fuelled:
entries past the version position are popped, and at the version position an
entry is either returned for reuse, broken down, or skipped.  `btosState`
models the head state produced when `parser__breakdown_top_of_stack` runs
after a breakdown fails (parser.c:456-460).  Returns the final cursor, the
final state and the reused tree with its table entry, if any. -/
def get_lookahead_cursor_loop (lang : Language) (p : Nat) (lastExt : Option Nat)
    (inAmbiguity : Bool) (btosState : Nat → Nat) :
    Nat → Nat → List RNodeEntry →
    Option (List RNodeEntry × Nat × Option (Tree × TableEntry))
  | 0, _, _ => Option.none
  | _ + 1, state, [] => some ([], state, Option.none)
  | fuel + 1, state, e :: rest =>
    if p < e.byteIndex then
      some (e :: rest, state, Option.none)
    else if e.byteIndex < p then
      get_lookahead_cursor_loop lang p lastExt inAmbiguity btosState fuel state rest
    else if !(e.lastExternalToken == lastExt) then
      get_lookahead_cursor_loop lang p lastExt inAmbiguity btosState fuel state rest
    else if cantReuseNodeReason inAmbiguity e.tree then
      match reusable_node_breakdown (e :: rest) with
      | some rn =>
        get_lookahead_cursor_loop lang p lastExt inAmbiguity btosState fuel state rn
      | Option.none =>
        get_lookahead_cursor_loop lang p lastExt inAmbiguity btosState fuel
          (btosState state) rest
    else
      let entry := lang.tableEntry state e.tree.data.firstLeafSym
      if parser__can_reuse_first_leaf lang state e.tree entry then
        some (e :: rest, state, some (e.tree, entry))
      else
        some (reusable_node_after_leaf (e :: rest), state, Option.none)

/-- The result `parser__get_lookahead` builds when it falls through to
`parser__lex` (parser.c:489-492): the fresh token is lexed at the current
position and state, stored into the token cache and its table entry looked up
by its own symbol. -/
def get_lookahead_fresh (lang : Language) (lexOracle : Nat → Nat → Tree)
    (p : Nat) (lastExt : Option Nat) (state : Nat)
    (cursor : List RNodeEntry) : LookaheadResult :=
  let t := lexOracle p state
  { tree := t
    entry := lang.tableEntry state t.data.symbol
    state := state
    cursor := cursor
    cache := parser__set_cached_token p lastExt (some t)
    source := .fresh }

/-- Shallow embedding of `parser__get_lookahead` (parser.c:417-493), fuelled
through the cursor loop.  `lexOracle` models `parser__lex` as a function of
the version position and the parse state. -/
def parser__get_lookahead (lang : Language) (p : Nat) (lastExt : Option Nat)
    (inAmbiguity : Bool) (btosState : Nat → Nat) (lexOracle : Nat → Nat → Tree)
    (fuel state : Nat) (cursor : List RNodeEntry) (cache : TokenCache) :
    Option LookaheadResult :=
  match get_lookahead_cursor_loop lang p lastExt inAmbiguity btosState fuel
      state cursor with
  | Option.none => Option.none
  | some (cursor2, state2, some (t, entry)) =>
    some { tree := t, entry := entry, state := state2, cursor := cursor2,
           cache := cache, source := .reuse }
  | some (cursor2, state2, Option.none) =>
    match parser__get_cached_token cache p lastExt with
    | some tok =>
      let entry := lang.tableEntry state2 tok.data.firstLeafSym
      if parser__can_reuse_first_leaf lang state2 tok entry then
        some { tree := tok, entry := entry, state := state2, cursor := cursor2,
               cache := cache, source := .cache }
      else
        some (get_lookahead_fresh lang lexOracle p lastExt state2 cursor2)
    | Option.none =>
      some (get_lookahead_fresh lang lexOracle p lastExt state2 cursor2)

/-- The observable outcome of one external-scanner attempt
(`lang.external_scanner.scan` plus the lexer bookkeeping around it):
whether it succeeded, the lexer position after the attempt, the token end
position (undefined when the scanner never marked one), and the reported
symbol. -/
structure ExtScanResult where
  success : Bool
  endPos : Nat
  tokenEnd : Option Nat
  resultSymbol : Nat
deriving DecidableEq

/-- The observable outcome of one internal `lex_fn` attempt: whether it
succeeded, the lexer position after the attempt, the token start (which the
lexer may move forward past skipped whitespace), the token end, and the
reported symbol. -/
structure IntLexResult where
  success : Bool
  endPos : Nat
  tokenStart : Nat
  tokenEnd : Nat
  resultSymbol : Nat
deriving DecidableEq

/-- The language and input oracles that `parser__lex` drives: lex modes,
whether a lex mode has enabled external tokens, the external scanner, the
internal lexer, the keyword lexer (start position to token end and symbol, if
it recognizes one), `ts_language_has_actions`, the external symbol map, the
serialized external-scanner state, the keyword capture token, and the input
byte at a position (`0` at end of input). -/
structure LexOracles where
  lexModes : Nat → LexMode
  extEnabled : Nat → Bool
  scanExt : Nat → Option Nat → ExtScanResult
  lexInt : Nat → Nat → IntLexResult
  keywordLexFn : Nat → Option (Nat × Nat)
  hasActions : Nat → Nat → Bool
  extSymbolMap : Nat → Nat
  serializedState : Nat
  keywordCaptureToken : Nat
  chr : Nat → Nat

/-- The mutable state of the loop in `parser__lex` (parser.c:236-242 and the
lexer position), plus a ghost trace `attempts` recording the byte position
reached by every lexing attempt (external scan, internal lex, error-mode
retry, error-span skipping). -/
structure LexLoopState where
  pos : Nat
  lexMode : LexMode
  errorMode : Bool
  skippedError : Bool
  errStart : Nat
  errEnd : Nat
  firstErrChar : Nat
  lastByteScanned : Nat
  attempts : List Nat
deriving DecidableEq

/-- How the loop in `parser__lex` terminated: an accepted external token
(parser.c:266-269), an accepted internal token (parser.c:285-287), or end of
input inside an error span (parser.c:312-314). -/
inductive LexBreak where
  | externalToken (tokenStart tokenEnd : Nat)
  | internalToken (tokenStart tokenEnd resultSymbol : Nat)
  | errorEof
deriving DecidableEq

/-- The internal-lexer part of one iteration of the `parser__lex` loop
(parser.c:278-320), continuing into the next iteration on failure. -/
def parser__lex_internal_step (o : LexOracles) (startPos : Nat)
    (extTok : Option Nat) (loop : LexLoopState → Option (LexLoopState × LexBreak))
    (s : LexLoopState) : Option (LexLoopState × LexBreak) :=
  let current := s.pos
  let ir := o.lexInt s.lexMode.lexState current
  let s1 := { s with attempts := ir.endPos :: s.attempts }
  if ir.success then
    some ({ s1 with pos := ir.endPos },
      .internalToken ir.tokenStart ir.tokenEnd ir.resultSymbol)
  else if !s1.errorMode then
    -- switch to the error lex mode and retry from the start (parser.c:289-301)
    loop { s1 with
      errorMode := true
      lexMode := o.lexModes ERROR_STATE
      lastByteScanned := max s1.lastByteScanned ir.endPos
      pos := startPos }
  else
    -- extend the error span (parser.c:303-319); the lexer is not reset, so
    -- its position remains wherever the failed attempt left it
    let s2 :=
      if !s1.skippedError then
        { s1 with
          skippedError := true
          errStart := ir.tokenStart
          errEnd := ir.tokenStart
          firstErrChar := o.chr ir.endPos }
      else s1
    let posNow := ir.endPos
    if posNow == s2.errEnd then
      if o.chr posNow == 0 then
        some ({ s2 with pos := posNow }, .errorEof)
      else
        loop { s2 with
          attempts := (posNow + 1) :: s2.attempts
          pos := posNow + 1
          errEnd := posNow + 1 }
    else
      loop { s2 with pos := posNow, errEnd := posNow }

/-- The loop of `parser__lex` (parser.c:245-320), fuelled: an external-scanner
attempt when the lex mode enables external tokens, then an internal attempt,
then error handling. -/
def parser__lex_loop (o : LexOracles) (startPos : Nat) (extTok : Option Nat) :
    Nat → LexLoopState → Option (LexLoopState × LexBreak)
  | 0, _ => Option.none
  | fuel + 1, s =>
    let current := s.pos
    if o.extEnabled s.lexMode.externalLexState then
      let er := o.scanExt current extTok
      let tokenEnd := er.tokenEnd.getD er.endPos
      if er.success && (!s.errorMode || tokenEnd > current) then
        some ({ s with attempts := er.endPos :: s.attempts, pos := er.endPos },
          .externalToken current tokenEnd)
      else
        -- record how far the attempt read, reset to the iteration start
        -- (parser.c:272-275)
        parser__lex_internal_step o startPos extTok
          (parser__lex_loop o startPos extTok fuel)
          { s with
            attempts := er.endPos :: s.attempts
            lastByteScanned := max s.lastByteScanned er.endPos
            pos := current }
    else
      parser__lex_internal_step o startPos extTok
        (parser__lex_loop o startPos extTok fuel) s

/-- Sets the fields that `parser__lex` assigns on every produced tree
(parser.c:367-369). -/
def setLexResultFields (t : Tree) (bytesScanned parseState : Nat)
    (lm : LexMode) : Tree :=
  match t with
  | .mk d cs =>
    .mk { d with bytesScanned := bytesScanned, parseState := parseState,
                 firstLeafLexMode := lm } cs

/-- Sets the external-token fields that `parser__lex` assigns on an external
token (parser.c:357-364). -/
def setExternalTokenFields (t : Tree) (serialized : Nat) : Tree :=
  match t with
  | .mk d cs =>
    .mk { d with hasExternalTokens := true, extTokState := some serialized } cs

/-- The result of `parser__lex`: the produced tree, the final value of
`last_byte_scanned`, and the ghost trace of attempt reaches. -/
structure LexOutcome where
  tree : Tree
  lastByteScanned : Nat
  attempts : List Nat
deriving DecidableEq

/-- Shallow embedding of `parser__lex` (parser.c:227-373), fuelled through the
scan loop.  `startPos` is the stack version's position when lexing begins and
`extTok` the version's last-external-token state. -/
def parser__lex (o : LexOracles) (startPos : Nat) (extTok : Option Nat)
    (parseState : Nat) (fuel : Nat) : Option LexOutcome :=
  let s0 : LexLoopState :=
    { pos := startPos
      lexMode := o.lexModes parseState
      errorMode := parseState == ERROR_STATE
      skippedError := false
      errStart := 0
      errEnd := 0
      firstErrChar := 0
      lastByteScanned := startPos
      attempts := [] }
  match parser__lex_loop o startPos extTok fuel s0 with
  | Option.none => Option.none
  | some (s, brk) =>
    -- parser.c:322-324
    let lastFinal := max s.lastByteScanned s.pos
    let result :=
      if s.skippedError then
        ts_tree_make_error (s.errEnd - s.errStart) (s.errStart - startPos)
          s.firstErrChar
      else
        match brk with
        | .externalToken tokenStart tokenEnd =>
          let tokenStart2 := if tokenEnd < tokenStart then tokenEnd else tokenStart
          let sym := o.extSymbolMap (o.scanExt tokenStart extTok).resultSymbol
          setExternalTokenFields
            (ts_tree_make_leaf sym (tokenStart2 - startPos) (tokenEnd - tokenStart2))
            o.serializedState
        | .internalToken tokenStart tokenEnd resultSymbol =>
          let tokenStart2 := if tokenEnd < tokenStart then tokenEnd else tokenStart
          let sym :=
            if resultSymbol == o.keywordCaptureToken && resultSymbol != 0 then
              match o.keywordLexFn tokenStart2 with
              | some (kwEnd, kwSym) =>
                if kwEnd == tokenEnd && o.hasActions parseState kwSym then kwSym
                else resultSymbol
              | Option.none => resultSymbol
            else resultSymbol
          ts_tree_make_leaf sym (tokenStart2 - startPos) (tokenEnd - tokenStart2)
        | .errorEof => ts_tree_make_error 0 0 0
    some { tree := setLexResultFields result (lastFinal - startPos + 1) parseState
             s.lexMode
           lastByteScanned := lastFinal
           attempts := s.attempts }

/-- `get_lookahead` as the specification claim describes it: first the
reusable-node cursor; failing that, the token cache, provided it hits at the
version's byte position and external-token state and its first leaf is
reusable at the current state; and only if neither applies, `lex` at the
version position and current state, the fresh token being stored into the
cache and its table entry looked up by its symbol. -/
def get_lookahead_spec (lang : Language) (p : Nat) (lastExt : Option Nat)
    (inAmbiguity : Bool) (btosState : Nat → Nat) (lexOracle : Nat → Nat → Tree)
    (fuel state : Nat) (cursor : List RNodeEntry) (cache : TokenCache) :
    Option LookaheadResult :=
  match get_lookahead_cursor_loop lang p lastExt inAmbiguity btosState fuel
      state cursor with
  | Option.none => Option.none
  | some (cursor2, state2, some (t, entry)) =>
    some { tree := t, entry := entry, state := state2, cursor := cursor2,
           cache := cache, source := .reuse }
  | some (cursor2, state2, Option.none) =>
    match cache.token with
    | some tok =>
      if cache.byteIndex = p ∧ cache.lastExternalToken = lastExt ∧
          parser__can_reuse_first_leaf lang state2 tok
            (lang.tableEntry state2 tok.data.firstLeafSym) = true then
        some { tree := tok
               entry := lang.tableEntry state2 tok.data.firstLeafSym
               state := state2, cursor := cursor2, cache := cache
               source := .cache }
      else
        let t := lexOracle p state2
        some { tree := t
               entry := lang.tableEntry state2 t.data.symbol
               state := state2, cursor := cursor2
               cache := { token := some t, byteIndex := p,
                          lastExternalToken := lastExt }
               source := .fresh }
    | Option.none =>
      let t := lexOracle p state2
      some { tree := t
             entry := lang.tableEntry state2 t.data.symbol
             state := state2, cursor := cursor2
             cache := { token := some t, byteIndex := p,
                        lastExternalToken := lastExt }
             source := .fresh }

/-- A concrete error tree used to exhibit counterexamples: a leaf with error
cost 1, dynamic precedence 0. -/
def exTreeLeft : Tree := .mk { baseTreeData with symbol := 1, errorCost := 1 } []

/-- A second, distinct concrete error tree with the same error cost and
dynamic precedence. -/
def exTreeRight : Tree := .mk { baseTreeData with symbol := 2, errorCost := 1 } []

/-- A concrete in-error stack version (head state is `ERROR_STATE`). -/
def exVersionA : Version :=
  { state := ERROR_STATE, position := 10, extTokens := 0, errorCost := 5,
    nodeCount := 0, dynPrec := 0, paused := false, halted := false }

/-- A second in-error version with the same cost but a different merge key. -/
def exVersionB : Version := { exVersionA with position := 11 }

/-- A version that is not in error, with the same cost and a third key. -/
def exVersionX : Version := { exVersionA with state := 3, position := 12 }

/-- A concrete merge-combination function: the merged head keeps the fields of
the earlier version. -/
def combineFst : Version → Version → Version := fun a _ => a

/-- A concrete parse action for exercising `ParseTable.add_action`. -/
def exAction : ParseAction :=
  { type := .shift, extra := false, fragile := false, symbol := 2,
    stateIndex := 5, consumedSymbolCount := 0, precedenceLo := 0,
    precedenceHi := 0, associativity := 0, production := Option.none }

/-- A concrete one-state parse table already containing `exAction`. -/
def exTable : ParseTable :=
  { states := [{ entries := [(2, { actions := [exAction], reusable := true,
                                   dependsOnLookahead := false })],
                 lexStateId := -1 }]
    symbols := [] }

/-- Concrete lexing oracles: no external scanner, and an internal lexer that
recognizes a three-byte token wherever it starts. -/
def exLexOracles : LexOracles :=
  { lexModes := fun _ => { lexState := 0, externalLexState := 0 }
    extEnabled := fun _ => false
    scanExt := fun p _ =>
      { success := false, endPos := p, tokenEnd := Option.none, resultSymbol := 0 }
    lexInt := fun _ p =>
      { success := true, endPos := p + 3, tokenStart := p, tokenEnd := p + 3,
        resultSymbol := 4 }
    keywordLexFn := fun _ => Option.none
    hasActions := fun _ _ => false
    extSymbolMap := id
    serializedState := 0
    keywordCaptureToken := 9
    chr := fun _ => 0 }

/-- A concrete language-table slice for exercising `parser__get_lookahead`. -/
def exLanguage : Language :=
  { lexModes := fun _ => { lexState := 0, externalLexState := 0 }
    keywordCaptureToken := 9
    tableEntry := fun _ _ =>
      { actionCount := 1, isReusable := true, dependsOnLookahead := false } }

/-- The concrete outcome of `parser__lex` over `exLexOracles` from position 0
in state 5 with fuel 2. -/
def exLexOutcome : LexOutcome :=
  (parser__lex exLexOracles 0 Option.none 5 2).getD
    { tree := Tree.mk baseTreeData [], lastByteScanned := 0, attempts := [] }

/-- A version of `exVersionA` that is paused rather than in the error state. -/
def exVersionPaused : Version :=
  { exVersionA with state := 3, paused := true }

/-- Tree `x` strictly wins over tree `y` under `select_tree`: `x` is kept both
when it is the left argument and when it is the right argument. -/
def selectWins (x y : Tree) : Prop :=
  parser__select_tree (some x) (some y) = false ∧
    parser__select_tree (some y) (some x) = true

/-- C2: for every pair of `ErrorStatus` values, `parser__compare_versions`
returns exactly what the specification describes: when exactly one side is in
error the non-error side wins, by `Take` iff its cost is strictly lower;
otherwise the cost difference times `1 + node_count` of the cheaper side,
measured against `MAX_COST_DIFFERENCE`, decides `Take` versus `Prefer`; and on
equal cost the strictly higher dynamic precedence gets `Prefer`, else `None`. -/
theorem claim2_compare_versions_spec (ecpst : Nat) (a b : ErrorStatus) :
    parser__compare_versions ecpst a b = compare_versions_spec ecpst a b := by
  unfold parser__compare_versions compare_versions_spec
  cases ha : a.is_in_error <;> cases hb : b.is_in_error <;> simp

/-- C9: `parser__version_status` adds one `ERROR_COST_PER_SKIPPED_TREE`
penalty to the stack's error cost exactly when the version is paused, and
reports `is_in_error` exactly when the version is paused or its head state is
`ERROR_STATE`. -/
theorem claim9_version_status (ecpst : Nat) (v : Version)
    (h : v.errorCost + ecpst < U32_MOD) :
    (parser__version_status ecpst v).cost
        = v.errorCost + (if v.paused then ecpst else 0) ∧
      ((parser__version_status ecpst v).is_in_error = true ↔
        v.paused = true ∨ v.state = ERROR_STATE) := by
  constructor
  · unfold parser__version_status
    cases hp : v.paused <;> simp [hp] <;> exact Nat.mod_eq_of_lt (by omega)
  · unfold parser__version_status
    simp [Bool.or_eq_true, beq_iff_eq]

/-- C9 witness: a concrete paused version with error cost 5 gets the 100-unit
pause penalty and counts as in error. -/
theorem claim9_version_status_witness :
    (parser__version_status 100 exVersionPaused).cost
        = exVersionPaused.errorCost + (if exVersionPaused.paused then 100 else 0) ∧
      ((parser__version_status 100 exVersionPaused).is_in_error = true ↔
        exVersionPaused.paused = true ∨ exVersionPaused.state = ERROR_STATE) :=
  claim9_version_status 100 exVersionPaused (by decide)

/-- C1 counterexample: two distinct trees with equal positive error cost and
equal dynamic precedence.  The claim's third rule says the LEFT tree is kept,
but `parser__select_tree` returns `true`, keeping the RIGHT tree. -/
theorem claim1_select_tree_counterexample :
    parser__select_tree (some exTreeLeft) (some exTreeRight)
        ≠ select_tree_claim (some exTreeLeft) (some exTreeRight) ∧
      parser__select_tree (some exTreeLeft) (some exTreeRight) = true ∧
      0 < exTreeLeft.data.errorCost ∧
      exTreeLeft.data.errorCost = exTreeRight.data.errorCost ∧
      exTreeLeft.data.dynPrec = exTreeRight.data.dynPrec := by
  decide

/-- C1 amended: `select_tree` keeps the tree with strictly smaller
`error_cost`, then the one with strictly higher `dynamic_precedence`; then, if
both trees have `error_cost > 0`, it keeps the RIGHT tree; otherwise the
lexicographic compare keeps the tree that appears earlier (the left one on
ties). -/
theorem claim1_select_tree_amended (l r : Option Tree) :
    parser__select_tree l r = select_tree_amended l r := by
  cases l with
  | none => rfl
  | some left =>
    cases r with
    | none => rfl
    | some right =>
      simp only [parser__select_tree, select_tree_amended]
      by_cases h1 : right.data.errorCost < left.data.errorCost
      · simp [h1]
      · by_cases h2 : left.data.errorCost < right.data.errorCost
        · simp [h1, h2]
        · by_cases h3 : right.data.dynPrec > left.data.dynPrec
          · simp [h1, h2, h3]
          · by_cases h4 : left.data.dynPrec > right.data.dynPrec
            · simp [h1, h2, h3, h4]
            · by_cases h5 : 0 < left.data.errorCost
              · have h6 : 0 < right.data.errorCost := by omega
                simp [h1, h2, h3, h4, h5, h6]
              · have h6 : ¬ 0 < right.data.errorCost := by omega
                by_cases hc1 : ts_tree_compare left right = -1
                · have hc2 : ¬ ts_tree_compare left right = 1 := by omega
                  simp [h1, h2, h3, h4, h5, h6, hc1, hc2]
                · simp [h1, h2, h3, h4, h5, h6, hc1]

/-- C3 helper: removing halted versions as the outer loop reaches them is the
same as filtering them out up front. -/
theorem condense_scan_halted_filter (ecpst : Nat)
    (combine : Version → Version → Version) (vs : List Version) :
    ∀ acc, parser__condense_stack_scan ecpst combine acc vs
      = condense_go_stale ecpst combine acc (vs.filter (fun v => !v.halted)) := by
  induction vs with
  | nil => intro acc; rfl
  | cons v todo ih =>
    intro acc
    by_cases hv : v.halted
    · simp [parser__condense_stack_scan, hv, List.filter_cons, ih]
    · simp only [parser__condense_stack_scan, hv, if_false, List.filter_cons,
        Bool.not_false, condense_go_stale]
      rcases hscan : condense_scan_stale ecpst combine [] acc v
          (parser__version_status ecpst v) with ⟨acc2, r⟩
      cases r <;> simp [ih]

/-- C3 counterexample: three versions — two in error with equal cost and
distinct merge keys, one healthy with the same cost.  The comparison of the
pair `(0, 2)` yields `PreferRight` and a failed merge, so versions 0 and 2 are
swapped; the code then compares the pair `(1, 2)` against the STALE
`status_i` of the version that was moved away from index 2 and swaps again,
while the claim's reading (fresh statuses for the versions now at `j` and `i`)
yields `None` and leaves the order alone.  The results differ. -/
theorem claim3_condense_counterexample :
    parser__condense_stack_scan 100 combineFst [] [exVersionA, exVersionB, exVersionX]
      ≠ condense_stack_claim 100 combineFst [exVersionA, exVersionB, exVersionX] := by
  decide

/-- C3 amended: `condense_stack` removes every halted version and acts on each
pair `(j, i)` with `j < i` exactly as the claim's table says — on `TakeLeft`
remove `i`, on `PreferLeft`/`None` try `merge(j, i)` and stop the scan of `i`
if it succeeds, on `PreferRight` try the merge and swap `i` and `j` if it
fails, on `TakeRight` remove `j` — except that `status_i` is computed once
when the scan of index `i` begins and is NOT recomputed after a `PreferRight`
swap places a different version at index `i`. -/
theorem claim3_condense_amended (ecpst : Nat)
    (combine : Version → Version → Version) (vs : List Version) :
    parser__condense_stack_scan ecpst combine [] vs
      = condense_stack_amended ecpst combine vs :=
  condense_scan_halted_filter ecpst combine vs []

/-- Structural induction principle for `Tree` with the hypothesis available at
every child. -/
theorem tree_ind (P : Tree → Prop)
    (h : ∀ d cs, (∀ c ∈ cs, P c) → P (.mk d cs)) : ∀ t, P t := by
  suffices H : ∀ n, ∀ t : Tree, sizeOf t ≤ n → P t from fun t => H (sizeOf t) t le_rfl
  intro n
  induction n with
  | zero =>
    intro t ht
    cases t with
    | mk d cs => simp at ht
  | succ n ih =>
    intro t ht
    cases t with
    | mk d cs =>
      apply h
      intro c hc
      apply ih
      have h1 : sizeOf c < sizeOf cs := List.sizeOf_lt_of_mem hc
      have h2 : sizeOf (Tree.mk d cs) = 1 + sizeOf d + sizeOf cs := by simp
      omega

/-- List-level antisymmetry of the tree comparator, given antisymmetry for the
elements of the first list. -/
theorem ts_tree_compare_list_neg (l1 : List Tree)
    (ih : ∀ t ∈ l1, ∀ u, ts_tree_compare t u = -(ts_tree_compare u t)) :
    ∀ l2, ts_tree_compare_list l1 l2 = -(ts_tree_compare_list l2 l1) := by
  induction l1 with
  | nil => intro l2; cases l2 <;> simp [ts_tree_compare_list]
  | cons t ts ihl =>
    intro l2
    cases l2 with
    | nil => simp [ts_tree_compare_list]
    | cons u us =>
      have ht := ih t (by simp) u
      simp only [ts_tree_compare_list]
      by_cases hc : ts_tree_compare t u = 0
      · have hc2 : ts_tree_compare u t = 0 := by omega
        simp only [hc, hc2, if_true]
        exact ihl (fun x hx => ih x (by simp [hx])) us
      · have hc2 : ¬ ts_tree_compare u t = 0 := by omega
        simp [hc, hc2, ht]

/-- `ts_tree_compare` is antisymmetric: swapping the arguments negates the
result. -/
theorem ts_tree_compare_neg :
    ∀ t u, ts_tree_compare t u = -(ts_tree_compare u t) := by
  apply tree_ind (fun t => ∀ u, ts_tree_compare t u = -(ts_tree_compare u t))
  intro d cs ih u
  cases u with
  | mk e ds =>
    simp only [ts_tree_compare]
    by_cases h1 : d.start < e.start
    · have h2 : ¬ e.start < d.start := by omega
      simp [h1, h2]
    · by_cases h2 : e.start < d.start
      · simp [h1, h2]
      · by_cases h3 : d.symbol < e.symbol
        · have h4 : ¬ e.symbol < d.symbol := by omega
          simp [h1, h2, h3, h4]
        · by_cases h4 : e.symbol < d.symbol
          · simp [h1, h2, h3, h4]
          · simp [h1, h2, h3, h4]
            exact ts_tree_compare_list_neg cs ih ds

/-- List-level zero-congruence, given zero-congruence and antisymmetry for the
elements of the first list. -/
theorem ts_tree_compare_list_zero_congr (l1 : List Tree)
    (ih : ∀ t ∈ l1, ∀ u, ts_tree_compare t u = 0 →
      ∀ z, ts_tree_compare t z = ts_tree_compare u z) :
    ∀ l2, ts_tree_compare_list l1 l2 = 0 →
      ∀ l3, ts_tree_compare_list l1 l3 = ts_tree_compare_list l2 l3 := by
  induction l1 with
  | nil =>
    intro l2 h l3
    cases l2 with
    | nil => rfl
    | cons u us => simp [ts_tree_compare_list] at h
  | cons t ts ihl =>
    intro l2 h l3
    cases l2 with
    | nil => simp [ts_tree_compare_list] at h
    | cons u us =>
      have hsplit : ts_tree_compare t u = 0 ∧ ts_tree_compare_list ts us = 0 := by
        by_cases hc : ts_tree_compare t u = 0
        · simpa [ts_tree_compare_list, hc] using h
        · simp [ts_tree_compare_list, hc] at h
      cases l3 with
      | nil => simp [ts_tree_compare_list]
      | cons w ws =>
        have hw := ih t (by simp) u hsplit.1 w
        simp only [ts_tree_compare_list, hw]
        by_cases hc : ts_tree_compare u w = 0
        · simp only [hc, if_true]
          exact ihl (fun x hx => ih x (by simp [hx])) us hsplit.2 ws
        · simp [hc]

/-- `ts_tree_compare` is congruent in its first argument across comparison-
equal trees. -/
theorem ts_tree_compare_zero_congr :
    ∀ t u, ts_tree_compare t u = 0 →
      ∀ z, ts_tree_compare t z = ts_tree_compare u z := by
  apply tree_ind (fun t => ∀ u, ts_tree_compare t u = 0 →
    ∀ z, ts_tree_compare t z = ts_tree_compare u z)
  intro d cs ih u h z
  cases u with
  | mk e ds =>
    cases z with
    | mk f es =>
      simp only [ts_tree_compare] at h ⊢
      by_cases h1 : d.start < e.start
      · simp [h1] at h
      · by_cases h2 : e.start < d.start
        · simp [h1, h2] at h
        · by_cases h3 : d.symbol < e.symbol
          · simp [h1, h2, h3] at h
          · by_cases h4 : e.symbol < d.symbol
            · simp [h1, h2, h3, h4] at h
            · simp only [h1, h2, h3, h4, if_false] at h
              have hstart : d.start = e.start := by omega
              have hsym : d.symbol = e.symbol := by omega
              rw [hstart, hsym]
              by_cases g1 : e.start < f.start
              · simp [g1]
              · by_cases g2 : f.start < e.start
                · simp [g1, g2]
                · by_cases g3 : e.symbol < f.symbol
                  · simp [g1, g2, g3]
                  · by_cases g4 : f.symbol < e.symbol
                    · simp [g1, g2, g3, g4]
                    · simp only [g1, g2, g3, g4, if_false]
                      exact ts_tree_compare_list_zero_congr cs ih ds h es

/-- List-level transitivity of the strict comparison, given the element-level
lemmas for the members of the first list. -/
theorem ts_tree_compare_list_trans (l1 : List Tree)
    (ihT : ∀ t ∈ l1, ∀ u w, ts_tree_compare t u = -1 →
      ts_tree_compare u w = -1 → ts_tree_compare t w = -1) :
    ∀ l2 l3, ts_tree_compare_list l1 l2 = -1 →
      ts_tree_compare_list l2 l3 = -1 → ts_tree_compare_list l1 l3 = -1 := by
  induction l1 with
  | nil =>
    intro l2 l3 h12 h23
    cases l3 with
    | nil =>
      cases l2 with
      | nil => simp [ts_tree_compare_list] at h12
      | cons u us => simp [ts_tree_compare_list] at h23
    | cons w ws => simp [ts_tree_compare_list]
  | cons t ts ihl =>
    intro l2 l3 h12 h23
    cases l2 with
    | nil => simp [ts_tree_compare_list] at h12
    | cons u us =>
      cases l3 with
      | nil => simp [ts_tree_compare_list] at h23
      | cons w ws =>
        simp only [ts_tree_compare_list] at h12 h23 ⊢
        by_cases c1 : ts_tree_compare t u = 0
        · simp only [c1, if_true] at h12
          have htu := ts_tree_compare_zero_congr t u c1 w
          by_cases c2 : ts_tree_compare u w = 0
          · simp only [c2, if_true] at h23
            have : ts_tree_compare t w = 0 := by rw [htu]; exact c2
            simp only [this, if_true]
            exact ihl (fun x hx => ihT x (by simp [hx])) us ws h12 h23
          · simp only [c2, if_false] at h23
            have : ts_tree_compare t w = -1 := by rw [htu]; exact h23
            simp [this]
        · simp only [c1, if_false] at h12
          by_cases c2 : ts_tree_compare u w = 0
          · simp only [c2, if_true] at h23
            have huw := ts_tree_compare_zero_congr u w c2 t
            have : ts_tree_compare t w = ts_tree_compare t u := by
              have e1 := ts_tree_compare_neg t w
              have e2 := ts_tree_compare_neg t u
              omega
            rw [h12] at this
            simp [this]
          · simp only [c2, if_false] at h23
            have := ihT t (by simp) u w h12 h23
            simp [this]

/-- Characterization of a strict `-1` outcome of `ts_tree_compare`. -/
theorem ts_tree_compare_eq_neg_one_iff (d e : TreeData) (cs ds : List Tree) :
    ts_tree_compare (.mk d cs) (.mk e ds) = -1 ↔
      d.start < e.start ∨
        (d.start = e.start ∧ d.symbol < e.symbol) ∨
        (d.start = e.start ∧ d.symbol = e.symbol ∧
          ts_tree_compare_list cs ds = -1) := by
  simp only [ts_tree_compare]
  split_ifs with h1 h2 h3 h4
  · exact iff_of_true rfl (Or.inl h1)
  · simp only [false_iff]
    rintro (h | ⟨h, _⟩ | ⟨h, _, _⟩) <;> omega
  · exact iff_of_true rfl (Or.inr (Or.inl ⟨by omega, h3⟩))
  · simp only [false_iff]
    rintro (h | ⟨_, h⟩ | ⟨_, h, _⟩) <;> omega
  · constructor
    · intro h
      exact Or.inr (Or.inr ⟨by omega, by omega, h⟩)
    · rintro (h | ⟨_, h⟩ | ⟨_, _, h⟩) <;> omega

/-- `ts_tree_compare` is transitive on strict comparisons. -/
theorem ts_tree_compare_trans :
    ∀ t u w, ts_tree_compare t u = -1 → ts_tree_compare u w = -1 →
      ts_tree_compare t w = -1 := by
  apply tree_ind (fun t => ∀ u w, ts_tree_compare t u = -1 →
    ts_tree_compare u w = -1 → ts_tree_compare t w = -1)
  intro d cs ih u w h12 h23
  cases u with
  | mk e ds =>
    cases w with
    | mk f es =>
      rw [ts_tree_compare_eq_neg_one_iff] at h12 h23 ⊢
      rcases h12 with h12 | ⟨hs12, h12⟩ | ⟨hs12, hy12, h12⟩ <;>
        rcases h23 with h23 | ⟨hs23, h23⟩ | ⟨hs23, hy23, h23⟩
      · exact Or.inl (by omega)
      · exact Or.inl (by omega)
      · exact Or.inl (by omega)
      · exact Or.inl (by omega)
      · exact Or.inr (Or.inl ⟨by omega, by omega⟩)
      · exact Or.inr (Or.inl ⟨by omega, by omega⟩)
      · exact Or.inl (by omega)
      · exact Or.inr (Or.inl ⟨by omega, by omega⟩)
      · exact Or.inr (Or.inr ⟨by omega, by omega,
          ts_tree_compare_list_trans cs ih ds es h12 h23⟩)

/-- Characterization of `parser__select_tree` returning `true` (keep right)
on non-null trees. -/
theorem parser__select_tree_true_iff (l r : Tree) :
    parser__select_tree (some l) (some r) = true ↔
      (r.data.errorCost < l.data.errorCost ∨
        (l.data.errorCost = r.data.errorCost ∧ l.data.dynPrec < r.data.dynPrec) ∨
        (l.data.errorCost = r.data.errorCost ∧ l.data.dynPrec = r.data.dynPrec ∧
          (0 < l.data.errorCost ∨ ts_tree_compare l r = 1))) := by
  simp only [parser__select_tree]
  split_ifs with h1 h2 h3 h4 h5 hc1 hc2
  · exact iff_of_true rfl (Or.inl h1)
  · simp only [false_iff]
    rintro (h | ⟨h, _⟩ | ⟨h, _, _⟩) <;> omega
  · exact iff_of_true rfl (Or.inr (Or.inl ⟨by omega, h3⟩))
  · simp only [false_iff]
    rintro (h | ⟨_, h⟩ | ⟨_, h, _⟩) <;> omega
  · exact iff_of_true rfl (Or.inr (Or.inr ⟨by omega, by omega, Or.inl h5⟩))
  · simp only [false_iff]
    rintro (h | ⟨_, h⟩ | ⟨_, _, h | h⟩) <;> omega
  · exact iff_of_true rfl (Or.inr (Or.inr ⟨by omega, by omega, Or.inr hc2⟩))
  · simp only [false_iff]
    rintro (h | ⟨_, h⟩ | ⟨_, _, h | h⟩) <;> omega

/-- A strict `selectWins` win is a strict descent in the lexicographic order
(error cost ascending, dynamic precedence descending, tree comparison). -/
theorem selectWins_lex {x y : Tree} (h : selectWins x y) :
    x.data.errorCost < y.data.errorCost ∨
      (x.data.errorCost = y.data.errorCost ∧ y.data.dynPrec < x.data.dynPrec) ∨
      (x.data.errorCost = y.data.errorCost ∧ x.data.dynPrec = y.data.dynPrec ∧
        x.data.errorCost = 0 ∧ ts_tree_compare x y = -1) := by
  obtain ⟨hf, ht⟩ := h
  have hnf : ¬ (parser__select_tree (some x) (some y) = true) := by simp [hf]
  rw [parser__select_tree_true_iff] at hnf ht
  have hcmp := ts_tree_compare_neg x y
  rcases ht with h | ⟨h1, h2⟩ | ⟨h1, h2, h3 | h3⟩
  · exact Or.inl h
  · exact Or.inr (Or.inl ⟨by omega, h2⟩)
  · exact absurd (Or.inr (Or.inr ⟨by omega, by omega, Or.inl (by omega)⟩)) hnf
  · by_cases h0 : 0 < x.data.errorCost
    · exact absurd (Or.inr (Or.inr ⟨by omega, by omega, Or.inl h0⟩)) hnf
    · exact Or.inr (Or.inr ⟨by omega, by omega, by omega, by omega⟩)

/-- C8 counterexample: two distinct trees with equal positive error cost and
equal dynamic precedence.  `select_tree` chooses its right argument in BOTH
orders, so it is not antisymmetric as claimed. -/
theorem claim8_select_tree_counterexample :
    parser__select_tree (some exTreeLeft) (some exTreeRight) = true ∧
      parser__select_tree (some exTreeRight) (some exTreeLeft) = true ∧
      exTreeLeft ≠ exTreeRight := by
  decide

/-- C8 amended: `select_tree` is antisymmetric except between trees with equal
POSITIVE error cost and equal dynamic precedence (where both orders keep the
right tree), and there is no cycle of three trees each strictly winning over
the next (strictly winning = being kept in both argument orders). -/
theorem claim8_select_tree_amended (a b c : Tree) :
    (¬(a.data.errorCost = b.data.errorCost ∧ 0 < a.data.errorCost ∧
        a.data.dynPrec = b.data.dynPrec) →
      ¬(parser__select_tree (some a) (some b) = true ∧
        parser__select_tree (some b) (some a) = true)) ∧
    ¬(selectWins a b ∧ selectWins b c ∧ selectWins c a) := by
  constructor
  · rintro hexc ⟨hab, hba⟩
    rw [parser__select_tree_true_iff] at hab hba
    have hcmp := ts_tree_compare_neg a b
    rcases hab with h | ⟨h1, h2⟩ | ⟨h1, h2, h3 | h3⟩ <;>
      rcases hba with g | ⟨g1, g2⟩ | ⟨g1, g2, g3 | g3⟩ <;> omega
  · rintro ⟨hw1, hw2, hw3⟩
    rcases selectWins_lex hw1 with hab | ⟨e1, hab⟩ | ⟨e1, d1, z1, hab⟩ <;>
      rcases selectWins_lex hw2 with hbc | ⟨e2, hbc⟩ | ⟨e2, d2, z2, hbc⟩ <;>
      rcases selectWins_lex hw3 with hca | ⟨e3, hca⟩ | ⟨e3, d3, z3, hca⟩ <;>
      first
        | omega
        | (have htr := ts_tree_compare_trans a b c hab hbc
           have hng := ts_tree_compare_neg a c
           omega)

/-- C8 witness: the amended antisymmetry and acyclicity at three concrete
error-free trees. -/
theorem claim8_select_tree_amended_witness :
    ¬(parser__select_tree (some (Tree.mk baseTreeData []))
          (some (Tree.mk { baseTreeData with start := 1 } [])) = true ∧
        parser__select_tree (some (Tree.mk { baseTreeData with start := 1 } []))
          (some (Tree.mk baseTreeData [])) = true) ∧
      ¬(selectWins (Tree.mk baseTreeData [])
            (Tree.mk { baseTreeData with start := 1 } []) ∧
          selectWins (Tree.mk { baseTreeData with start := 1 } [])
            (Tree.mk { baseTreeData with start := 2 } []) ∧
          selectWins (Tree.mk { baseTreeData with start := 2 } [])
            (Tree.mk baseTreeData [])) :=
  ⟨(claim8_select_tree_amended (Tree.mk baseTreeData [])
      (Tree.mk { baseTreeData with start := 1 } [])
      (Tree.mk { baseTreeData with start := 2 } [])).1 (by decide),
   (claim8_select_tree_amended (Tree.mk baseTreeData [])
      (Tree.mk { baseTreeData with start := 1 } [])
      (Tree.mk { baseTreeData with start := 2 } [])).2⟩

/-- Removing the element at index `n` does not change the first `n`
elements. -/
theorem take_eraseIdx {α : Type} (l : List α) (n : Nat) :
    (l.eraseIdx n).take n = l.take n := by
  induction l generalizing n with
  | nil => simp [List.eraseIdx]
  | cons a tl ih =>
    cases n with
    | zero => simp
    | succ n => simp [List.eraseIdx, List.take_succ_cons, ih]

/-- The removal loop of `parser__reduce` keeps exactly the first `k`
versions. -/
theorem removeVersionsAbove_eq_take (k : Nat) :
    ∀ vs : List Version, removeVersionsAbove vs k = vs.take k := by
  suffices H : ∀ n (vs : List Version), vs.length ≤ n →
      removeVersionsAbove vs k = vs.take k from fun vs => H vs.length vs le_rfl
  intro n
  induction n with
  | zero =>
    intro vs h
    have hnil : vs = [] := List.eq_nil_of_length_eq_zero (by omega)
    subst hnil
    rw [removeVersionsAbove]
    simp
  | succ n ih =>
    intro vs h
    rw [removeVersionsAbove]
    by_cases hk : k < vs.length
    · rw [dif_pos hk, ih (vs.eraseIdx k) (by simp [List.length_eraseIdx, hk]; omega)]
      exact take_eraseIdx vs k
    · rw [dif_neg hk]
      exact (List.take_of_length_le (by omega)).symm

/-- The version-cap loop of `parser__condense_stack` keeps exactly the first
`MAX_VERSION_COUNT` versions. -/
theorem condense_cap_eq_take :
    ∀ vs : List Version, parser__condense_stack_cap vs = vs.take MAX_VERSION_COUNT := by
  suffices H : ∀ n (vs : List Version), vs.length ≤ n →
      parser__condense_stack_cap vs = vs.take MAX_VERSION_COUNT from
    fun vs => H vs.length vs le_rfl
  intro n
  induction n with
  | zero =>
    intro vs h
    have hnil : vs = [] := List.eq_nil_of_length_eq_zero (by omega)
    subst hnil
    rw [parser__condense_stack_cap]
    simp
  | succ n ih =>
    intro vs h
    rw [parser__condense_stack_cap]
    by_cases hk : MAX_VERSION_COUNT < vs.length
    · rw [dif_pos hk, ih (vs.eraseIdx MAX_VERSION_COUNT)
        (by simp [List.length_eraseIdx, hk]; omega)]
      exact take_eraseIdx vs MAX_VERSION_COUNT
    · rw [dif_neg hk]
      exact (List.take_of_length_le (by omega)).symm

/-- `modifyAt` preserves the length of the list. -/
theorem modifyAt_length (f : Version → Version) :
    ∀ (l : List Version) (n : Nat), (modifyAt f l n).length = l.length := by
  intro l
  induction l with
  | nil => intro n; rfl
  | cons v vs ih =>
    intro n
    cases n with
    | zero => rfl
    | succ n => simp [modifyAt, ih]

/-- Halting slice versions preserves the length of the version list. -/
theorem haltSliceVersions_length (idxs : List Nat) :
    ∀ vs : List Version, (haltSliceVersions vs idxs).length = vs.length := by
  induction idxs with
  | nil => intro vs; rfl
  | cons i idxs ih =>
    intro vs
    simp only [haltSliceVersions, List.foldl_cons] at ih ⊢
    rw [ih, modifyAt_length]

/-- When the version count is within the bound, the per-slice loop of
`parser__reduce` leaves the version list alone. -/
theorem reduce_slice_loop_of_le (vs : List Version)
    (h : vs.length ≤ MAX_VERSION_COUNT) :
    ∀ slices, reduce_slice_loop vs slices = vs := by
  intro slices
  induction slices with
  | nil => rfl
  | cons sv rest ih => simp [reduce_slice_loop, Nat.not_lt.2 h, ih]

/-- The merge loop at the end of `parser__reduce` does not grow the version
list beyond its input. -/
theorem reduce_merge_news_length (combine : Version → Version → Version) :
    ∀ (rest acc : List Version),
      (reduce_merge_news combine acc rest).length ≤ acc.length + rest.length := by
  intro rest
  induction rest with
  | nil => intro acc; simp [reduce_merge_news]
  | cons v rest ih =>
    intro acc
    simp only [reduce_merge_news]
    rcases hf : acc.findIdx? (fun w => ts_stack_can_merge w v) with _ | j
    · have := ih (acc ++ [v])
      simp at this ⊢
      omega
    · have := ih (modifyAt (fun w => combine w v) acc j)
      rw [modifyAt_length] at this
      simp at this ⊢
      omega

/-- C6: the two mechanisms the claim names.  First, the cap loop of
`parser__condense_stack` removes exactly the versions past index
`MAX_VERSION_COUNT`, so its result never has more than `MAX_VERSION_COUNT`
versions.  Second, `parser__reduce` — which halts the remaining slices and
removes the versions above the first slice's index as soon as the count
exceeds the bound — never leaves more than `MAX_VERSION_COUNT` versions when
the version count before the pop was within the bound. -/
theorem claim6_version_bound :
    (∀ vs : List Version,
      parser__condense_stack_cap vs = vs.take MAX_VERSION_COUNT ∧
        (parser__condense_stack_cap vs).length ≤ MAX_VERSION_COUNT) ∧
    (∀ (combine : Version → Version → Version) (initialCount : Nat)
        (vs : List Version) (slices : List Nat),
      initialCount ≤ MAX_VERSION_COUNT →
      (∀ sv rest, slices = sv :: rest → sv < initialCount) →
      (slices = [] → vs.length ≤ MAX_VERSION_COUNT) →
      (parser__reduce_versions combine initialCount vs slices).length
        ≤ MAX_VERSION_COUNT) := by
  constructor
  · intro vs
    refine ⟨condense_cap_eq_take vs, ?_⟩
    rw [condense_cap_eq_take vs]
    simp [MAX_VERSION_COUNT]
  · intro combine initialCount vs slices hinit hfirst hempty
    have hloop : (reduce_slice_loop vs slices).length ≤ MAX_VERSION_COUNT := by
      cases slices with
      | nil => simpa [reduce_slice_loop] using hempty rfl
      | cons sv rest =>
        by_cases hbig : MAX_VERSION_COUNT < vs.length
        · have hsv : sv < initialCount := hfirst sv rest rfl
          simp only [reduce_slice_loop, hbig, if_true]
          rw [removeVersionsAbove_eq_take]
          simp only [List.length_take]
          omega
        · rw [reduce_slice_loop_of_le vs (by omega)]
          omega
    unfold parser__reduce_versions
    have hm := reduce_merge_news_length combine
      ((reduce_slice_loop vs slices).drop initialCount) []
    simp only [List.length_nil, List.length_drop] at hm
    simp only [List.length_append, List.length_take, List.length_drop]
    omega

/-- C6 witness: the cap loop truncates a concrete eight-version list to six,
and the reduce model keeps a concrete seven-version list within the bound. -/
theorem claim6_version_bound_witness :
    (parser__condense_stack_cap
        (List.replicate 8 exVersionA) = (List.replicate 8 exVersionA).take
          MAX_VERSION_COUNT ∧
      (parser__condense_stack_cap (List.replicate 8 exVersionA)).length
        ≤ MAX_VERSION_COUNT) ∧
    (parser__reduce_versions combineFst 2
        (List.replicate 7 exVersionA) [1, 6]).length ≤ MAX_VERSION_COUNT :=
  ⟨claim6_version_bound.1 (List.replicate 8 exVersionA),
   claim6_version_bound.2 combineFst 2 (List.replicate 7 exVersionA) [1, 6]
     (by decide)
     (fun sv rest h => by
       simp at h
       omega)
     (fun h => by simp at h)⟩

/-- A node built by `ts_tree_make_node` spans exactly the total byte extent of
its children. -/
theorem totalBytes_make_node (sym : Nat) (cs : List Tree) (aliasSeq : Nat) :
    totalBytes (ts_tree_make_node sym cs aliasSeq) = childrenTotalBytes cs := by
  cases cs with
  | nil => rfl
  | cons c rest =>
    simp only [ts_tree_make_node, totalBytes, Tree.data, childrenTotalBytes,
      List.map_cons, List.sum_cons]
    have : c.data.padding ≤ totalBytes c := Nat.le_add_right _ _
    simp only [childrenTotalBytes] at *
    omega

/-- `splitLastNonExtra` finds the last non-extra element when the list ends in
a non-extra element followed by one extra element. -/
theorem splitLastNonExtra_append (r e : Tree) (he : e.data.extra = true)
    (hr : r.data.extra = false) :
    ∀ pre : List Tree, splitLastNonExtra (pre ++ [r, e]) = some (pre, r, [e]) := by
  intro pre
  induction pre with
  | nil =>
    simp [splitLastNonExtra, he, hr]
  | cons t pre ih =>
    simp only [List.cons_append, splitLastNonExtra, List.append_eq, ih]

/-- `splitLastNonExtra` on the list `halt_parse` accepts: the stack trees,
the filler, the error root and the extra EOF. -/
theorem splitLastNonExtra_halt (pre : List Tree) (a r e : Tree)
    (he : e.data.extra = true) (hr : r.data.extra = false) :
    splitLastNonExtra (pre ++ [a, r, e]) = some (pre ++ [a], r, [e]) := by
  have h := splitLastNonExtra_append r e he hr (pre ++ [a])
  simpa using h

/-- C4: whenever `halt_on_error` is set, the condense pass reports a strictly
positive minimum error cost and no finished tree with a strictly smaller cost
exists, the parse loop decides to call `halt_parse`; and `halt_parse` — after
driving the lexer to the end of the input, pushing an invisible filler error
node over the remaining bytes and a root error node, and accepting a
zero-width EOF — produces a tree covering the whole input. -/
theorem claim4_halt_parse :
    (∀ (haltOnError : Bool) (minErrorCost : Nat) (finished : Option Tree),
      haltOnError = true → 0 < minErrorCost →
      (∀ f, finished = some f → ¬ f.data.errorCost < minErrorCost) →
      parse_loop_decision haltOnError minErrorCost finished = .callHaltParse) ∧
    (∀ (inputEndPos stackPos : Nat) (stackTrees : List Tree),
      stackPos ≤ inputEndPos → childrenTotalBytes stackTrees = stackPos →
      ∃ root, parser__halt_parse inputEndPos stackPos stackTrees = some root ∧
        totalBytes root = inputEndPos) := by
  constructor
  · intro haltOnError minErrorCost finished hhalt hmin hfin
    cases finished with
    | none => simp [parse_loop_decision, hhalt, hmin]
    | some f =>
      have := hfin f rfl
      simp [parse_loop_decision, hhalt, hmin, this]
  · intro inputEndPos stackPos stackTrees hle hsum
    have hsplit := splitLastNonExtra_halt stackTrees
      (markInvisible (ts_tree_make_error (inputEndPos - stackPos) 0 0))
      (ts_tree_make_error_node [])
      (markExtra (ts_tree_make_leaf ts_builtin_sym_end 0 0)) rfl rfl
    simp only [parser__halt_parse, parser__accept_root, hsplit]
    refine ⟨_, rfl, ?_⟩
    rw [totalBytes_make_node]
    have hch : (ts_tree_make_error_node ([] : List Tree)).children = [] := rfl
    rw [hch]
    simp only [childrenTotalBytes, List.map_append, List.sum_append]
    simp only [childrenTotalBytes] at hsum
    have h1 : totalBytes (markInvisible (ts_tree_make_error (inputEndPos - stackPos) 0 0))
        = inputEndPos - stackPos := by
      simp [totalBytes, markInvisible, ts_tree_make_error, Tree.data]
    have h2 : totalBytes (markExtra (ts_tree_make_leaf ts_builtin_sym_end 0 0)) = 0 := rfl
    simp [h1, h2, hsum]
    omega

/-- C4 witness: with `halt_on_error`, minimum cost 3 and no finished tree, the
loop decides to halt, and `halt_parse` over a four-byte stack and a ten-byte
input yields a tree covering all ten bytes. -/
theorem claim4_halt_parse_witness :
    parse_loop_decision true 3 Option.none = .callHaltParse ∧
      (parser__halt_parse 10 4 [ts_tree_make_leaf 7 1 3]).map totalBytes
        = some 10 := by
  refine ⟨claim4_halt_parse.1 true 3 Option.none rfl (by decide)
    (fun f hf => by cases hf), ?_⟩
  obtain ⟨root, h1, h2⟩ :=
    claim4_halt_parse.2 10 4 [ts_tree_make_leaf 7 1 3] (by decide) (by decide)
  rw [h1]
  simp [h2]

/-- C5: `parser__get_lookahead` tries its three sources in the claimed fixed
order — the reusable-node cursor first, then the single-slot token cache (a
hit at the version's byte position and external-token state whose first leaf
is reusable at the current state), and only if neither applies does it invoke
`lex` and store the fresh token into the cache. -/
theorem claim5_get_lookahead_order (lang : Language) (p : Nat)
    (lastExt : Option Nat) (inAmbiguity : Bool) (btosState : Nat → Nat)
    (lexOracle : Nat → Nat → Tree) (fuel state : Nat)
    (cursor : List RNodeEntry) (cache : TokenCache) :
    parser__get_lookahead lang p lastExt inAmbiguity btosState lexOracle fuel
        state cursor cache
      = get_lookahead_spec lang p lastExt inAmbiguity btosState lexOracle fuel
          state cursor cache := by
  unfold parser__get_lookahead get_lookahead_spec
  rcases hl : get_lookahead_cursor_loop lang p lastExt inAmbiguity btosState
      fuel state cursor with _ | ⟨cursor2, state2, topt⟩
  · rfl
  · rcases topt with _ | ⟨t, entry⟩
    · simp only [parser__get_cached_token, get_lookahead_fresh,
        parser__set_cached_token]
      rcases hc : cache.token with _ | tok
      · rfl
      · by_cases hbyte : cache.byteIndex = p
        · by_cases hext : cache.lastExternalToken = lastExt
          · by_cases hcr : parser__can_reuse_first_leaf lang state2 tok
                (lang.tableEntry state2 tok.data.firstLeafSym) = true
            · simp [hbyte, hext, hcr]
            · simp [hbyte, hext, hcr]
          · simp [hbyte, hext]
        · simp [hbyte]
    · rfl

/-- Reading back the key just set in an association list yields the value. -/
theorem alistGet_alistSet {β : Type} (d : β) :
    ∀ (l : List (Int × β)) (k : Int) (v : β), alistGet d (alistSet l k v) k = v := by
  intro l
  induction l with
  | nil => intro k v; simp [alistSet, alistGet, List.find?]
  | cons p rest ih =>
    intro k v
    by_cases hp : p.1 == k
    · simp [alistSet, hp, alistGet, List.find?]
    · rw [Bool.not_eq_true] at hp
      simp only [alistSet, hp, Bool.false_eq_true, if_false, alistGet]
      rw [List.find?_cons_of_neg _ (by simp [hp])]
      exact ih k v

/-- After setting a key, a search for it finds the new binding. -/
theorem alistSet_find {β : Type} :
    ∀ (l : List (Int × β)) (k : Int) (v : β),
      (alistSet l k v).find? (fun p => p.1 == k) = some (k, v) := by
  intro l
  induction l with
  | nil => intro k v; simp [alistSet, List.find?]
  | cons p rest ih =>
    intro k v
    by_cases hp : p.1 == k
    · simp [alistSet, hp, List.find?]
    · rw [Bool.not_eq_true] at hp
      simp only [alistSet, hp, Bool.false_eq_true, if_false]
      rw [List.find?_cons_of_neg _ (by simp [hp])]
      exact ih k v

/-- Setting a present key to the value it already holds leaves the list
unchanged. -/
theorem alistSet_self {β : Type} (d : β) :
    ∀ (l : List (Int × β)) (k : Int) (q : Int × β),
      l.find? (fun p => p.1 == k) = some q →
      alistSet l k (alistGet d l k) = l := by
  intro l
  induction l with
  | nil => intro k q hq; simp [List.find?] at hq
  | cons p rest ih =>
    intro k q hq
    by_cases hp : p.1 == k
    · have hk : p.1 = k := by simpa using hp
      simp [alistSet, hp, alistGet, List.find?, ← hk]
    · rw [Bool.not_eq_true] at hp
      rw [List.find?_cons_of_neg _ (by simp [hp])] at hq
      simp only [alistSet, hp, Bool.false_eq_true, if_false, alistGet]
      rw [List.find?_cons_of_neg _ (by simp [hp])]
      have := ih k q hq
      simp only [alistGet] at this
      rw [this]

/-- `getD` after `set` at the same valid index yields the new element. -/
theorem getD_set_self {α : Type} (l : List α) (i : Nat) (x d : α)
    (h : i < l.length) : (l.set i x).getD i d = x := by
  simp [List.getD_eq_getElem?_getD, List.getElem?_set, h]

/-- Setting a valid index to the element it already holds leaves the list
unchanged. -/
theorem set_getD_self {α : Type} :
    ∀ (l : List α) (i : Nat) (d : α), i < l.length → l.set i (l.getD i d) = l := by
  intro l
  induction l with
  | nil => intro i d h; simp at h
  | cons a tl ih =>
    intro i d h
    cases i with
    | zero => simp [List.getD]
    | succ i =>
      simp only [List.set, List.getD_cons_succ]
      rw [ih i d (by simpa using h)]

/-- `ParseAction::operator==` is reflexive. -/
theorem ParseAction.eqOp_refl (a : ParseAction) : ParseAction.eqOp a a = true := by
  simp [ParseAction.eqOp]

/-- Marking a symbol's metadata twice with the same flag is the same as
marking it once. -/
theorem markSymbolMetadata_idem (m : ParseTableSymbolMetadata) (e : Bool) :
    markSymbolMetadata (markSymbolMetadata m e) e = markSymbolMetadata m e := by
  cases e <;> simp [markSymbolMetadata]

/-- Setting a key twice to the same value is the same as setting it once. -/
theorem alistSet_alistSet_self {β : Type} (d : β) (l : List (Int × β)) (k : Int)
    (v : β) : alistSet (alistSet l k v) k v = alistSet l k v := by
  have h2 := alistSet_self d (alistSet l k v) k (k, v) (alistSet_find l k v)
  rw [alistGet_alistSet] at h2
  exact h2

/-- The result of `ParseTable::add_action` when an equal action already sits
in the entry's list. -/
theorem add_action_found (t : ParseTable) (id : Nat) (sym : Int)
    (a e : ParseAction)
    (hfind : (t.actionsAt id sym).find? (fun x => ParseAction.eqOp x a) = some e) :
    t.add_action id sym a
      = ({ states := t.states.set id
             { entries := alistSet (t.states.getD id emptyParseState).entries sym
                 (alistGet emptyParseTableEntry
                   (t.states.getD id emptyParseState).entries sym)
               lexStateId := (t.states.getD id emptyParseState).lexStateId }
           symbols := alistSet t.symbols sym
             (markSymbolMetadata
               (alistGet { extra := false, structural := false } t.symbols sym)
               a.extra) }, e) := by
  simp only [ParseTable.actionsAt] at hfind
  simp only [ParseTable.add_action, hfind]

/-- The result of `ParseTable::add_action` when no equal action is present:
the action is appended. -/
theorem add_action_push (t : ParseTable) (id : Nat) (sym : Int) (a : ParseAction)
    (hfind : (t.actionsAt id sym).find? (fun x => ParseAction.eqOp x a)
      = Option.none) :
    t.add_action id sym a
      = ({ states := t.states.set id
             { entries := alistSet (t.states.getD id emptyParseState).entries sym
                 { alistGet emptyParseTableEntry
                     (t.states.getD id emptyParseState).entries sym with
                   actions := (alistGet emptyParseTableEntry
                     (t.states.getD id emptyParseState).entries sym).actions ++ [a] }
               lexStateId := (t.states.getD id emptyParseState).lexStateId }
           symbols := alistSet t.symbols sym
             (markSymbolMetadata
               (alistGet { extra := false, structural := false } t.symbols sym)
               a.extra) }, a) := by
  simp only [ParseTable.actionsAt] at hfind
  simp only [ParseTable.add_action, hfind]

/-- Structure eta for `ParseState`. -/
theorem parseState_eta (st : ParseState) :
    ({ entries := st.entries, lexStateId := st.lexStateId } : ParseState) = st := rfl

/-- Structure eta for `ParseTable`. -/
theorem parseTable_eta (t : ParseTable) :
    ({ states := t.states, symbols := t.symbols } : ParseTable) = t := rfl

/-- `add_action` returns its table unchanged when an equal action is present
and the symbol flag and default entry insertion are no-ops. -/
theorem add_action_stable (T : ParseTable) (id : Nat) (sym : Int)
    (a e : ParseAction) (hid : id < T.states.length)
    (hfind : (T.actionsAt id sym).find? (fun x => ParseAction.eqOp x a) = some e)
    (hsym : alistSet T.symbols sym
      (markSymbolMetadata (alistGet { extra := false, structural := false }
        T.symbols sym) a.extra) = T.symbols)
    (hent : alistSet (T.states.getD id emptyParseState).entries sym
        (alistGet emptyParseTableEntry (T.states.getD id emptyParseState).entries sym)
      = (T.states.getD id emptyParseState).entries) :
    T.add_action id sym a = (T, e) := by
  rw [add_action_found T id sym a e hfind, hent,
    parseState_eta (T.states.getD id emptyParseState),
    set_getD_self T.states id emptyParseState hid, hsym,
    parseTable_eta T]

/-- C10: `ParseTable::add_action` is idempotent — if an equal action (per
`operator==`) is already present in the entry's action list, the call leaves
the list unchanged and returns the existing action, and adding the same
action twice yields the same table as adding it once. -/
theorem claim10_add_action_idempotent (t : ParseTable) (id : Nat) (sym : Int)
    (a : ParseAction) (hid : id < t.states.length) :
    (∀ e, (t.actionsAt id sym).find? (fun x => ParseAction.eqOp x a) = some e →
      (t.add_action id sym a).1.actionsAt id sym = t.actionsAt id sym ∧
        (t.add_action id sym a).2 = e) ∧
    (t.add_action id sym a).1.add_action id sym a = t.add_action id sym a := by
  constructor
  · intro e he
    rw [add_action_found t id sym a e he]
    constructor
    · simp only [ParseTable.actionsAt]
      rw [getD_set_self _ _ _ _ hid, alistGet_alistSet]
    · rfl
  · rcases hfind : (t.actionsAt id sym).find? (fun x => ParseAction.eqOp x a)
        with _ | e
    · -- no equal action yet: the first call appends `a`, the second finds it
      rw [add_action_push t id sym a hfind]
      try dsimp only
      apply add_action_stable
      · simpa using hid
      · simp only [ParseTable.actionsAt]
        try dsimp only
        rw [getD_set_self _ _ _ _ (by simpa using hid), alistGet_alistSet]
        try dsimp only
        rw [List.find?_append]
        simp only [ParseTable.actionsAt] at hfind
        rw [hfind]
        simp [ParseAction.eqOp_refl]
      · try dsimp only
        rw [alistGet_alistSet, markSymbolMetadata_idem,
          alistSet_alistSet_self { extra := false, structural := false }]
      · try dsimp only
        rw [getD_set_self _ _ _ _ (by simpa using hid)]
        try dsimp only
        rw [alistGet_alistSet, alistSet_alistSet_self emptyParseTableEntry]
    · -- an equal action is already present: both calls find it
      rw [add_action_found t id sym a e hfind]
      try dsimp only
      apply add_action_stable
      · simpa using hid
      · simp only [ParseTable.actionsAt]
        try dsimp only
        rw [getD_set_self _ _ _ _ (by simpa using hid), alistGet_alistSet]
        try dsimp only
        simpa [ParseTable.actionsAt] using hfind
      · try dsimp only
        rw [alistGet_alistSet, markSymbolMetadata_idem,
          alistSet_alistSet_self { extra := false, structural := false }]
      · try dsimp only
        rw [getD_set_self _ _ _ _ (by simpa using hid)]
        try dsimp only
        rw [alistGet_alistSet, alistSet_alistSet_self emptyParseTableEntry]

/-- C10 witness: re-adding the action already present in `exTable` leaves the
action list unchanged, returns the existing action, and adding it twice
equals adding it once. -/
theorem claim10_add_action_idempotent_witness :
    ((exTable.add_action 0 2 exAction).1.actionsAt 0 2 = exTable.actionsAt 0 2 ∧
      (exTable.add_action 0 2 exAction).2 = exAction) ∧
    (exTable.add_action 0 2 exAction).1.add_action 0 2 exAction
      = exTable.add_action 0 2 exAction :=
  ⟨(claim10_add_action_idempotent exTable 0 2 exAction (by decide)).1 exAction
     (by decide),
   (claim10_add_action_idempotent exTable 0 2 exAction (by decide)).2⟩

/-- The tree produced by `parser__lex` carries exactly the `bytes_scanned`
value assigned at parser.c:367. -/
theorem setLexResultFields_bytesScanned (t : Tree) (b ps : Nat) (lm : LexMode) :
    (setLexResultFields t b ps lm).data.bytesScanned = b := by
  cases t
  rfl

/-- The invariant of the `parser__lex` loop is preserved through the
internal-lexer part of one iteration: the start position bounds
`last_byte_scanned` from below, and every recorded attempt reach is bounded
by `max last_byte_scanned position`. -/
theorem parser__lex_internal_step_invariant (o : LexOracles) (startPos : Nat)
    (extTok : Option Nat) (loop : LexLoopState → Option (LexLoopState × LexBreak))
    (hint : ∀ st p, p ≤ (o.lexInt st p).endPos)
    (hloop : ∀ s, startPos ≤ s.lastByteScanned →
      (∀ a ∈ s.attempts, a ≤ max s.lastByteScanned s.pos) →
      ∀ s2 brk, loop s = some (s2, brk) →
        startPos ≤ s2.lastByteScanned ∧
          ∀ a ∈ s2.attempts, a ≤ max s2.lastByteScanned s2.pos) :
    ∀ s, startPos ≤ s.lastByteScanned →
      (∀ a ∈ s.attempts, a ≤ max s.lastByteScanned s.pos) →
      ∀ s2 brk, parser__lex_internal_step o startPos extTok loop s = some (s2, brk) →
        startPos ≤ s2.lastByteScanned ∧
          ∀ a ∈ s2.attempts, a ≤ max s2.lastByteScanned s2.pos := by
  intro s h1 h2 s2 brk h
  have hir : s.pos ≤ (o.lexInt s.lexMode.lexState s.pos).endPos := hint _ _
  simp only [parser__lex_internal_step] at h
  split at h
  · -- internal token accepted
    simp only [Option.some.injEq, Prod.mk.injEq] at h
    obtain ⟨hA, _⟩ := h
    subst hA
    refine ⟨h1, ?_⟩
    intro a ha
    simp only [List.mem_cons] at ha
    rcases ha with rfl | ha
    · simp <;> omega
    · have := h2 a ha
      simp at this ⊢ <;> omega
  · split at h
    · -- switch to error mode and retry from the start
      refine hloop _ (by simp <;> omega) ?_ s2 brk h
      intro a ha
      simp only [List.mem_cons] at ha
      rcases ha with rfl | ha
      · simp <;> omega
      · have := h2 a ha
        simp at this ⊢ <;> omega
    · -- already in error mode: extend the error span
      split at h <;> split at h
      · -- first skipped character, at the error end
        split at h
        · -- end of input: break
          simp only [Option.some.injEq, Prod.mk.injEq] at h
          obtain ⟨hA, _⟩ := h
          subst hA
          refine ⟨h1, ?_⟩
          intro a ha
          simp only [List.mem_cons] at ha
          rcases ha with rfl | ha
          · simp <;> omega
          · have := h2 a ha
            simp at this ⊢ <;> omega
        · -- advance one character
          refine hloop _ (by simp <;> omega) ?_ s2 brk h
          intro a ha
          simp only [List.mem_cons] at ha
          rcases ha with rfl | rfl | ha
          · simp
          · simp <;> omega
          · have := h2 a ha
            simp at this ⊢ <;> omega
      · -- first skipped character, past the error end
        refine hloop _ (by simp <;> omega) ?_ s2 brk h
        intro a ha
        simp only [List.mem_cons] at ha
        rcases ha with rfl | ha
        · simp <;> omega
        · have := h2 a ha
          simp at this ⊢ <;> omega
      · -- later skipped character, at the error end
        split at h
        · simp only [Option.some.injEq, Prod.mk.injEq] at h
          obtain ⟨hA, _⟩ := h
          subst hA
          refine ⟨h1, ?_⟩
          intro a ha
          simp only [List.mem_cons] at ha
          rcases ha with rfl | ha
          · simp <;> omega
          · have := h2 a ha
            simp at this ⊢ <;> omega
        · refine hloop _ (by simp <;> omega) ?_ s2 brk h
          intro a ha
          simp only [List.mem_cons] at ha
          rcases ha with rfl | rfl | ha
          · simp
          · simp <;> omega
          · have := h2 a ha
            simp at this ⊢ <;> omega
      · -- later skipped character, past the error end
        refine hloop _ (by simp <;> omega) ?_ s2 brk h
        intro a ha
        simp only [List.mem_cons] at ha
        rcases ha with rfl | ha
        · simp <;> omega
        · have := h2 a ha
          simp at this ⊢ <;> omega

/-- The invariant of the `parser__lex` loop holds at every successful exit. -/
theorem parser__lex_loop_invariant (o : LexOracles) (startPos : Nat)
    (extTok : Option Nat)
    (hext : ∀ p et, p ≤ (o.scanExt p et).endPos)
    (hint : ∀ st p, p ≤ (o.lexInt st p).endPos) :
    ∀ fuel s, startPos ≤ s.lastByteScanned →
      (∀ a ∈ s.attempts, a ≤ max s.lastByteScanned s.pos) →
      ∀ s2 brk, parser__lex_loop o startPos extTok fuel s = some (s2, brk) →
        startPos ≤ s2.lastByteScanned ∧
          ∀ a ∈ s2.attempts, a ≤ max s2.lastByteScanned s2.pos := by
  intro fuel
  induction fuel with
  | zero =>
    intro s h1 h2 s2 brk h
    simp [parser__lex_loop] at h
  | succ fuel ih =>
    intro s h1 h2 s2 brk h
    have her : s.pos ≤ (o.scanExt s.pos extTok).endPos := hext _ _
    simp only [parser__lex_loop] at h
    split at h
    · split at h
      · -- external token accepted
        simp only [Option.some.injEq, Prod.mk.injEq] at h
        obtain ⟨hA, _⟩ := h
        subst hA
        refine ⟨h1, ?_⟩
        intro a ha
        simp only [List.mem_cons] at ha
        rcases ha with rfl | ha
        · simp <;> omega
        · have := h2 a ha
          simp at this ⊢ <;> omega
      · -- external attempt recorded, reset, and fall through to the
        -- internal attempt
        refine parser__lex_internal_step_invariant o startPos extTok _ hint
          (fun s' h1' h2' s2' brk' h' => ih s' h1' h2' s2' brk' h')
          _ (by simp <;> omega) ?_ s2 brk h
        intro a ha
        simp only [List.mem_cons] at ha
        rcases ha with rfl | ha
        · simp <;> omega
        · have := h2 a ha
          simp at this ⊢ <;> omega
    · exact parser__lex_internal_step_invariant o startPos extTok _ hint
        (fun s' h1' h2' s2' brk' h' => ih s' h1' h2' s2' brk' h')
        s h1 h2 s2 brk h

/-- C7: every tree produced by `parser__lex` has
`bytes_scanned = last_byte_scanned − start.bytes + 1`, where
`last_byte_scanned` is at least the start position and at least the farthest
byte position reached by any lexing attempt (external scan, internal lex,
error-mode retry, error-span skipping); consequently `bytes_scanned ≥ 1`.
The lexer oracles may only move forward. -/
theorem claim7_lex_bytes_scanned (o : LexOracles) (startPos : Nat)
    (extTok : Option Nat) (parseState fuel : Nat)
    (hext : ∀ p et, p ≤ (o.scanExt p et).endPos)
    (hint : ∀ st p, p ≤ (o.lexInt st p).endPos)
    (out : LexOutcome)
    (h : parser__lex o startPos extTok parseState fuel = some out) :
    out.tree.data.bytesScanned = out.lastByteScanned - startPos + 1 ∧
      startPos ≤ out.lastByteScanned ∧
      1 ≤ out.tree.data.bytesScanned ∧
      ∀ a ∈ out.attempts, a ≤ out.lastByteScanned := by
  rcases hl : parser__lex_loop o startPos extTok fuel
      { pos := startPos, lexMode := o.lexModes parseState,
        errorMode := parseState == ERROR_STATE, skippedError := false,
        errStart := 0, errEnd := 0, firstErrChar := 0,
        lastByteScanned := startPos, attempts := [] } with _ | ⟨s, brk⟩
  · simp only [parser__lex, hl] at h
    exact Option.noConfusion h
  · have hinv := parser__lex_loop_invariant o startPos extTok hext hint fuel
      { pos := startPos, lexMode := o.lexModes parseState,
        errorMode := parseState == ERROR_STATE, skippedError := false,
        errStart := 0, errEnd := 0, firstErrChar := 0,
        lastByteScanned := startPos, attempts := [] }
      le_rfl (by simp) s brk hl
    obtain ⟨g1, g2⟩ := hinv
    simp only [parser__lex, hl] at h
    injection h with h2
    subst h2
    refine ⟨?_, ?_, ?_, ?_⟩
    · simp [setLexResultFields_bytesScanned]
    · simp <;> omega
    · simp [setLexResultFields_bytesScanned]
    · intro a ha
      simp only at ha ⊢
      have := g2 a ha
      omega

/-- C7 witness: the claim at the concrete oracles `exLexOracles`, which
recognize a three-byte token at position 0. -/
theorem claim7_lex_bytes_scanned_witness :
    exLexOutcome.tree.data.bytesScanned = exLexOutcome.lastByteScanned - 0 + 1 ∧
      0 ≤ exLexOutcome.lastByteScanned ∧
      1 ≤ exLexOutcome.tree.data.bytesScanned ∧
      3 ≤ exLexOutcome.lastByteScanned := by
  have h := claim7_lex_bytes_scanned exLexOracles 0 Option.none 5 2
    (fun p et => by simp [exLexOracles])
    (fun st p => by simp [exLexOracles])
    exLexOutcome (by decide)
  exact ⟨h.1, h.2.1, h.2.2.1, h.2.2.2 3 (by decide)⟩

end TreeSitter
